import Mathlib

/-!
Verification development for `generic_json_protobuf_serializer.py`.

The repository is a thin wrapper class (`GenericJsonProtobufSerializer`)
around a generic JSON <-> dynamically-typed binary-container codec: JSON
text is parsed to a value tree, the tree is converted to the generic
container message, the container is serialized to bytes, and back.  The
codec itself (the JSON parser, the JSON serializer, and the binary
encoder/decoder of the container) is delegated to a library and is not
part of the repository's sources, so those parts are modelled here from
the specification (its sections 3, 4.1-4.4); the wrapper's own control
flow (state fields, truthiness fallbacks, path bookkeeping, error
re-raising) is translated directly from the Python source.

Conventions of the embedding:
  * Python values loaded from JSON are the `Value` tree of spec section 3.
  * Bytes are modelled as `List Nat` (each element < 256 for produced bytes).
  * Fallible operations return `Except`; the wrapper's methods take and
    return an explicit `SerializerState` and a functional file system.
-/

/-- Modelled from the spec: the Number kind of the value tree (spec section 3,
double-precision numbers, "integers are represented as numbers with zero
fractional part").  A finite number is modelled exactly as a decimal
mantissa/exponent pair (value `m * 10^e`); the non-finite IEEE-754 values
NaN and the two infinities, which the spec's encoder must reject, are
explicit constructors.  IEEE-754 rounding of out-of-range decimals is an
accepted lossy boundary in the spec and is not modelled. -/
inductive JNum where
  | finite (m : Int) (e : Int)
  | nan
  | posInf
  | negInf
deriving DecidableEq, Repr

/-- Modelled from the spec: the closed `Value` kind set of spec section 3:
null, boolean, number, string (a sequence of Unicode scalar values, here a
`List Char`), ordered list, and ordered string-keyed map (an ordered
association list; key uniqueness is an invariant maintained by
construction, last write wins). -/
inductive Value where
  | vnull
  | vbool (b : Bool)
  | vnum (n : JNum)
  | vstr (s : List Char)
  | vlist (xs : List Value)
  | vmap (kvs : List (List Char × Value))

/-- Finiteness of a number: true exactly on the `finite` constructor. -/
def JNum.isFinite : JNum → Bool
  | .finite _ _ => true
  | _ => false

mutual

/-- A value tree is all-finite when every `Number` in it is finite. -/
def Value.allFinite : Value → Bool
  | .vnull => true
  | .vbool _ => true
  | .vnum n => n.isFinite
  | .vstr _ => true
  | .vlist xs => allFiniteElems xs
  | .vmap kvs => allFiniteEntries kvs

/-- All-finiteness of a list of values. -/
def allFiniteElems : List Value → Bool
  | [] => true
  | v :: vs => v.allFinite && allFiniteElems vs

/-- All-finiteness of the values of a map's entries. -/
def allFiniteEntries : List (List Char × Value) → Bool
  | [] => true
  | kv :: kvs => kv.2.allFinite && allFiniteEntries kvs

end

mutual

/-- A value tree contains a non-finite number (NaN or an infinity). -/
def Value.hasNonFinite : Value → Bool
  | .vnull => false
  | .vbool _ => false
  | .vnum n => !n.isFinite
  | .vstr _ => false
  | .vlist xs => hasNonFiniteElems xs
  | .vmap kvs => hasNonFiniteEntries kvs

/-- Containment of a non-finite number in a list of values. -/
def hasNonFiniteElems : List Value → Bool
  | [] => false
  | v :: vs => v.hasNonFinite || hasNonFiniteElems vs

/-- Containment of a non-finite number in a map's entries. -/
def hasNonFiniteEntries : List (List Char × Value) → Bool
  | [] => false
  | kv :: kvs => kv.2.hasNonFinite || hasNonFiniteEntries kvs

end

/-- A value tree whose top level is a map. -/
def Value.isMapTop : Value → Bool
  | .vmap _ => true
  | _ => false

mutual

/-- Node count of a value tree (used as decode fuel bound); every node
counts at least one. -/
def nodesVal : Value → Nat
  | .vnull => 1
  | .vbool _ => 1
  | .vnum _ => 1
  | .vstr _ => 1
  | .vlist xs => nodesElems xs + 1
  | .vmap kvs => nodesEntries kvs + 1

/-- Node count of a list of values, charging one extra step per element
(matching the decoder's fuel consumption). -/
def nodesElems : List Value → Nat
  | [] => 0
  | v :: vs => 1 + nodesVal v + nodesElems vs

/-- Node count of a map's entries, charging one extra step per entry. -/
def nodesEntries : List (List Char × Value) → Nat
  | [] => 0
  | kv :: kvs => 1 + nodesVal kv.2 + nodesEntries kvs

end

/-! ### Variable-length byte encoding of naturals (LEB128-style)

The spec's binary format (section 4.3) uses length prefixes and counts;
they are encoded here as base-128 varints, the same device the reference
container format uses on the wire. -/

/-- Little-endian base-128 encoding of a natural number; every byte except
the last carries a continuation bit. -/
def natBytes (n : Nat) : List Nat :=
  if n < 128 then [n] else (n % 128 + 128) :: natBytes (n / 128)
decreasing_by exact Nat.div_lt_self (by omega) (by omega)

/-- Decode a base-128 varint from the front of a byte list. -/
def decNat : List Nat → Option (Nat × List Nat)
  | [] => none
  | b :: rest =>
    if b < 128 then some (b, rest)
    else
      match decNat rest with
      | some (n, r) => some ((b - 128) + 128 * n, r)
      | none => none

/-- Zigzag map of an integer to a natural (non-negatives to evens). -/
def zig : Int → Nat
  | .ofNat n => 2 * n
  | .negSucc n => 2 * n + 1

/-- Inverse of the zigzag map. -/
def unzig (n : Nat) : Int :=
  if n % 2 = 0 then .ofNat (n / 2) else .negSucc (n / 2)

/-- Bytes of one character: the varint of its code point. -/
def charBytes (c : Char) : List Nat := natBytes c.toNat

/-- Bytes of a character sequence (spec section 4.3's length-prefixed
string payload; the count of characters is prefixed by the caller). -/
def strBytes : List Char → List Nat
  | [] => []
  | c :: cs => charBytes c ++ strBytes cs

/-- Decode `count` characters from the front of a byte list, rejecting
code points that are not Unicode scalar values. -/
def decChars : Nat → List Nat → Option (List Char × List Nat)
  | 0, bs => some ([], bs)
  | k + 1, bs =>
    match decNat bs with
    | some (n, r) =>
      if _h : n.isValidChar then
        match decChars k r with
        | some (cs, r2) => some (Char.ofNat n :: cs, r2)
        | none => none
      else none
    | none => none

/-! ### Binary encoder (spec section 4.3) and decoder (spec section 4.4)

Modelled from the spec: each value is tagged with its kind; Null carries
no payload; Boolean one byte; Number its payload (here the zigzag varints
of the exact mantissa/exponent pair standing in for the fixed IEEE-754
double of the byte-level format, which the spec declares design-level
rather than byte-exact); String a count followed by its characters; List
a count followed by that many encoded values; Map a count followed by
that many (length-prefixed key, encoded value) pairs.  Encoding fails
(the spec's `EncodeError`) exactly on a non-finite number. -/

/-- Encoding failure: the value tree holds a kind the wire format cannot
carry, namely a non-finite number (spec sections 4.3 and 7). -/
inductive EncodeError where
  | nonFinite
deriving DecidableEq, Repr

/-- Decoding failure (spec sections 4.4 and 7): truncated input, an
unrecognized kind tag, a malformed payload, or bytes left over after the
single top-level value. -/
inductive DecodeError where
  | truncated
  | badTag
  | badPayload
  | trailingBytes
deriving DecidableEq, Repr

mutual

/-- Encode one value to bytes, failing on a non-finite number. -/
def encodeVal : Value → Except EncodeError (List Nat)
  | .vnull => .ok [0]
  | .vbool b => .ok [1, cond b 1 0]
  | .vnum (.finite m e) => .ok (2 :: (natBytes (zig m) ++ natBytes (zig e)))
  | .vnum _ => .error .nonFinite
  | .vstr s => .ok (3 :: (natBytes s.length ++ strBytes s))
  | .vlist xs =>
    match encodeElems xs with
    | .ok bs => .ok (4 :: (natBytes xs.length ++ bs))
    | .error e => .error e
  | .vmap kvs =>
    match encodeEntries kvs with
    | .ok bs => .ok (5 :: (natBytes kvs.length ++ bs))
    | .error e => .error e

/-- Encode the elements of a list, in order. -/
def encodeElems : List Value → Except EncodeError (List Nat)
  | [] => .ok []
  | v :: vs =>
    match encodeVal v with
    | .ok b =>
      match encodeElems vs with
      | .ok bs => .ok (b ++ bs)
      | .error e => .error e
    | .error e => .error e

/-- Encode the entries of a map, in order: length-prefixed key, then the
encoded value. -/
def encodeEntries : List (List Char × Value) → Except EncodeError (List Nat)
  | [] => .ok []
  | (k, v) :: kvs =>
    match encodeVal v with
    | .ok b =>
      match encodeEntries kvs with
      | .ok bs => .ok ((natBytes k.length ++ strBytes k) ++ (b ++ bs))
      | .error e => .error e
    | .error e => .error e

end

mutual

/-- Decode one value from the front of a byte list.  `fuel` dominates the
node count of the decoded value; the exported `decode` passes a bound
derived from the buffer length, which suffices because every encoded node
occupies at least its tag byte. -/
def decodeVal : Nat → List Nat → Except DecodeError (Value × List Nat)
  | 0, _ => .error .truncated
  | _ + 1, [] => .error .truncated
  | fuel + 1, t :: bs =>
    if t = 0 then .ok (.vnull, bs)
    else if t = 1 then
      match bs with
      | 0 :: r => .ok (.vbool false, r)
      | 1 :: r => .ok (.vbool true, r)
      | _ :: _ => .error .badPayload
      | [] => .error .truncated
    else if t = 2 then
      match decNat bs with
      | some (zm, r1) =>
        match decNat r1 with
        | some (ze, r2) => .ok (.vnum (.finite (unzig zm) (unzig ze)), r2)
        | none => .error .truncated
      | none => .error .truncated
    else if t = 3 then
      match decNat bs with
      | some (len, r1) =>
        match decChars len r1 with
        | some (s, r2) => .ok (.vstr s, r2)
        | none => .error .truncated
      | none => .error .truncated
    else if t = 4 then
      match decNat bs with
      | some (count, r1) =>
        match decodeElems fuel count r1 with
        | .ok (xs, r2) => .ok (.vlist xs, r2)
        | .error e => .error e
      | none => .error .truncated
    else if t = 5 then
      match decNat bs with
      | some (count, r1) =>
        match decodeEntries fuel count r1 with
        | .ok (kvs, r2) => .ok (.vmap kvs, r2)
        | .error e => .error e
      | none => .error .truncated
    else .error .badTag

/-- Decode `count` list elements, spending one fuel step per element. -/
def decodeElems : Nat → Nat → List Nat → Except DecodeError (List Value × List Nat)
  | _, 0, bs => .ok ([], bs)
  | 0, _ + 1, _ => .error .truncated
  | fuel + 1, k + 1, bs =>
    match decodeVal fuel bs with
    | .ok (v, r) =>
      match decodeElems fuel k r with
      | .ok (vs, r2) => .ok (v :: vs, r2)
      | .error e => .error e
    | .error e => .error e

/-- Decode `count` map entries (length-prefixed key, then value),
spending one fuel step per entry. -/
def decodeEntries : Nat → Nat → List Nat → Except DecodeError (List (List Char × Value) × List Nat)
  | _, 0, bs => .ok ([], bs)
  | 0, _ + 1, _ => .error .truncated
  | fuel + 1, k + 1, bs =>
    match decNat bs with
    | some (klen, r0) =>
      match decChars klen r0 with
      | some (key, r1) =>
        match decodeVal fuel r1 with
        | .ok (v, r2) =>
          match decodeEntries fuel k r2 with
          | .ok (kvs, r3) => .ok ((key, v) :: kvs, r3)
          | .error e => .error e
        | .error e => .error e
      | none => .error .truncated
    | none => .error .truncated

end

/-- Decode a whole buffer to a single value, rejecting empty or trailing
input (spec section 4.4: a zero-length buffer is truncated input).  The
fuel bound `2 * length + 1` dominates the node count of any value whose
encoding fits in the buffer, since every node occupies at least one byte. -/
def decode (bs : List Nat) : Except DecodeError Value :=
  match decodeVal (2 * bs.length + 1) bs with
  | .ok (v, []) => .ok v
  | .ok (_, _ :: _) => .error .trailingBytes
  | .error e => .error e

/-! ### JSON parser (spec section 4.1)

Modelled from the spec: the wrapper delegates text parsing to a library
JSON parser (`json.load` / `json.loads`), absent from the sources.  The
model is a recursive-descent parser for the RFC 8259 grammar: objects,
arrays, strings with escape sequences, numbers in integer, fractional and
exponent forms, and the three literals; it rejects trailing garbage after
the single top-level value, unterminated strings and structures, invalid
escapes, unescaped control characters, and leading zeros.  Surrogate-pair
combination of adjacent `\u` escapes is not modelled (a `\u` escape
denoting a surrogate half is rejected).  Recursion is on an explicit fuel
that dominates the input length, so totality is structural. -/

/-- JSON insignificant whitespace: space, tab, line feed, carriage return. -/
def isWsChar (c : Char) : Bool := c = ' ' || c = '\t' || c = '\n' || c = '\r'

/-- Drop leading JSON whitespace. -/
def skipWs : List Char → List Char
  | c :: cs => if isWsChar c then skipWs cs else c :: cs
  | [] => []

/-- Decimal digit test. -/
def isDigitCh (c : Char) : Bool := '0' ≤ c && c ≤ '9'

/-- Split off the longest leading run of decimal digits. -/
def takeDigits : List Char → List Char × List Char
  | [] => ([], [])
  | c :: cs =>
    if isDigitCh c then
      match takeDigits cs with
      | (ds, r) => (c :: ds, r)
    else ([], c :: cs)

/-- Numeric value of a digit run (most significant first). -/
def digitsToNat (ds : List Char) : Nat :=
  ds.foldl (fun a c => a * 10 + (c.toNat - 48)) 0

/-- Value of one hexadecimal digit. -/
def hexDigitVal (hc : Char) : Option Nat :=
  if isDigitCh hc then some (hc.toNat - 48)
  else if 'a' ≤ hc && hc ≤ 'f' then some (hc.toNat - 87)
  else if 'A' ≤ hc && hc ≤ 'F' then some (hc.toNat - 55)
  else none

/-- Value of a four-digit hexadecimal escape payload. -/
def hexQuad (a b c d : Char) : Option Nat :=
  match hexDigitVal a, hexDigitVal b, hexDigitVal c, hexDigitVal d with
  | some va, some vb, some vc, some vd => some (((va * 16 + vb) * 16 + vc) * 16 + vd)
  | _, _, _, _ => none

/-- Single-character JSON escapes. -/
def unescape (e : Char) : Option Char :=
  if e = 'n' then some '\n'
  else if e = 't' then some '\t'
  else if e = 'r' then some '\r'
  else if e = 'b' then some (Char.ofNat 8)
  else if e = 'f' then some (Char.ofNat 12)
  else if e = '"' then some '"'
  else if e = '/' then some '/'
  else if e = '\\' then some '\\'
  else none

/-- Parse failures of the modelled JSON parser (the Python
`json.JSONDecodeError`; positions are not modelled). -/
inductive ParseErr where
  | unexpectedEnd
  | unexpectedChar
  | badEscape
  | badStringChar
  | badNumber
  | expectedColon
  | expectedKey
  | trailingGarbage
  | fuelExhausted
deriving DecidableEq, Repr

/-- Parse the remainder of a string literal, after its opening quote:
content characters up to the closing quote, with escapes decoded. -/
def parseStrTail : List Char → Except ParseErr (List Char × List Char)
  | [] => .error .unexpectedEnd
  | c :: rest =>
    if c = '"' then .ok ([], rest)
    else if c = '\\' then
      match rest with
      | [] => .error .unexpectedEnd
      | e :: rest2 =>
        if e = 'u' then
          match rest2 with
          | a :: b :: c2 :: d :: rest3 =>
            match hexQuad a b c2 d with
            | some n =>
              if n.isValidChar then
                match parseStrTail rest3 with
                | .ok (str, r) => .ok (Char.ofNat n :: str, r)
                | .error err => .error err
              else .error .badEscape
            | none => .error .badEscape
          | _ => .error .unexpectedEnd
        else
          match unescape e with
          | some ch =>
            match parseStrTail rest2 with
            | .ok (str, r) => .ok (ch :: str, r)
            | .error err => .error err
          | none => .error .badEscape
    else if c.toNat < 32 then .error .badStringChar
    else
      match parseStrTail rest with
      | .ok (str, r) => .ok (c :: str, r)
      | .error err => .error err

/-- Integer-part digit run check: a single zero, or a nonzero digit
followed by digits (JSON forbids redundant leading zeros). -/
def intPartOk : List Char → Bool
  | [] => false
  | ['0'] => true
  | c :: rest => ('1' ≤ c && c ≤ '9') && rest.all isDigitCh

/-- Build the exact number denoted by sign, integer digits, fraction
digits and exponent value: `±(ids ++ fds) * 10 ^ (expVal - |fds|)`. -/
def mkNum (neg : Bool) (ids fds : List Char) (expVal : Int) : JNum :=
  .finite ((if neg then -1 else 1) * (digitsToNat (ids ++ fds) : Int))
    (expVal - (fds.length : Int))

/-- Parse the mandatory digits of an exponent and finish the number. -/
def parseExpDigits (neg : Bool) (ids fds : List Char) (eneg : Bool) (cs : List Char) :
    Except ParseErr (JNum × List Char) :=
  match takeDigits cs with
  | ([], _) => .error .badNumber
  | (eds, r) =>
    .ok (mkNum neg ids fds (if eneg then -(digitsToNat eds : Int) else (digitsToNat eds : Int)), r)

/-- Parse an optional exponent sign, then its digits. -/
def parseExpTail (neg : Bool) (ids fds : List Char) (cs : List Char) :
    Except ParseErr (JNum × List Char) :=
  match cs with
  | '+' :: cs1 => parseExpDigits neg ids fds false cs1
  | '-' :: cs1 => parseExpDigits neg ids fds true cs1
  | _ => parseExpDigits neg ids fds false cs

/-- Parse an optional exponent part. -/
def parseNumExp (neg : Bool) (ids fds : List Char) (cs : List Char) :
    Except ParseErr (JNum × List Char) :=
  match cs with
  | 'e' :: cs1 => parseExpTail neg ids fds cs1
  | 'E' :: cs1 => parseExpTail neg ids fds cs1
  | _ => .ok (mkNum neg ids fds 0, cs)

/-- Parse the unsigned part of a number: integer digits obeying the
leading-zero rule, then an optional fraction and exponent. -/
def parseNumAbs (neg : Bool) (cs : List Char) : Except ParseErr (JNum × List Char) :=
  match takeDigits cs with
  | (ids, cs2) =>
    if intPartOk ids then
      match cs2 with
      | '.' :: cs3 =>
        match takeDigits cs3 with
        | ([], _) => .error .badNumber
        | (fds, cs4) => parseNumExp neg ids fds cs4
      | _ => parseNumExp neg ids [] cs2
    else .error .badNumber

/-- Parse a JSON number (optional leading minus, then the unsigned part). -/
def parseNumber (cs : List Char) : Except ParseErr (JNum × List Char) :=
  match cs with
  | '-' :: cs1 => parseNumAbs true cs1
  | _ => parseNumAbs false cs

/-- Insert a key/value binding into an ordered map, Python-dict style:
a duplicate key keeps its original position and takes the new value
(last write wins), a fresh key is appended. -/
def insertEntry : List (List Char × Value) → List Char → Value → List (List Char × Value)
  | [], k, v => [(k, v)]
  | (k0, v0) :: rest, k, v =>
    if k0 = k then (k0, v) :: rest
    else (k0, v0) :: insertEntry rest k v

/-- Fold a textual member list into a map, last write wins per key. -/
def buildMap (ms : List (List Char × Value)) : List (List Char × Value) :=
  ms.foldl (fun acc kv => insertEntry acc kv.1 kv.2) []

mutual

/-- Parse one JSON value, after skipping leading whitespace.  `fuel`
decreases on every recursive call; the exported entry point passes a
bound that dominates the input length, so exhaustion is unreachable
there. -/
def parseVal : Nat → List Char → Except ParseErr (Value × List Char)
  | 0, _ => .error .fuelExhausted
  | fuel + 1, inp =>
    match skipWs inp with
    | 'n' :: 'u' :: 'l' :: 'l' :: rst => .ok (.vnull, rst)
    | 't' :: 'r' :: 'u' :: 'e' :: rst => .ok (.vbool true, rst)
    | 'f' :: 'a' :: 'l' :: 's' :: 'e' :: rst => .ok (.vbool false, rst)
    | '"' :: rst =>
      match parseStrTail rst with
      | .ok (sbody, nx2) => .ok (.vstr sbody, nx2)
      | .error e => .error e
    | '[' :: rst =>
      match skipWs rst with
      | ']' :: nx2 => .ok (.vlist [], nx2)
      | _ =>
        match parseElems fuel rst with
        | .ok (elems, nx2) => .ok (.vlist elems, nx2)
        | .error e => .error e
    | '\x7b' :: rst =>
      match skipWs rst with
      | '\x7d' :: nx2 => .ok (.vmap [], nx2)
      | _ =>
        match parseMembers fuel rst with
        | .ok (mems, nx2) => .ok (.vmap (buildMap mems), nx2)
        | .error e => .error e
    | ch :: rst =>
      if ch = '-' || isDigitCh ch then
        match parseNumber (ch :: rst) with
        | .ok (numv, nx2) => .ok (.vnum numv, nx2)
        | .error e => .error e
      else .error .unexpectedChar
    | [] => .error .unexpectedEnd

/-- Parse one-or-more comma-separated array elements, then the closing
bracket; the empty array is handled by `parseVal`. -/
def parseElems : Nat → List Char → Except ParseErr (List Value × List Char)
  | 0, _ => .error .fuelExhausted
  | fuel + 1, inp =>
    match parseVal fuel inp with
    | .error e => .error e
    | .ok (vv, rst) =>
      match skipWs rst with
      | ',' :: nx2 =>
        match parseElems fuel nx2 with
        | .ok (tl, ks3) => .ok (vv :: tl, ks3)
        | .error e => .error e
      | ']' :: nx2 => .ok ([vv], nx2)
      | _ => .error .unexpectedChar

/-- Parse one-or-more comma-separated object members (string key, colon,
value), then the closing brace; the empty object is handled by
`parseVal`.  Members are returned in textual order, duplicates included;
the caller folds them into a map. -/
def parseMembers : Nat → List Char → Except ParseErr (List (List Char × Value) × List Char)
  | 0, _ => .error .fuelExhausted
  | fuel + 1, inp =>
    match skipWs inp with
    | '"' :: rst =>
      match parseStrTail rst with
      | .error e => .error e
      | .ok (kq, ks1) =>
        match skipWs ks1 with
        | ':' :: nx2 =>
          match parseVal fuel nx2 with
          | .error e => .error e
          | .ok (vv, ks3) =>
            match skipWs ks3 with
            | ',' :: ks4 =>
              match parseMembers fuel ks4 with
              | .ok (mems, ks5) => .ok ((kq, vv) :: mems, ks5)
              | .error e => .error e
            | '\x7d' :: ks4 => .ok ([(kq, vv)], ks4)
            | _ => .error .unexpectedChar
        | _ => .error .expectedColon
    | _ => .error .expectedKey

end

/-- Parse a complete JSON document: one value, then only whitespace. -/
def parseTop (doc : List Char) : Except ParseErr Value :=
  match parseVal (doc.length + 1) doc with
  | .error perr => .error perr
  | .ok (vres, tail0) =>
    match skipWs tail0 with
    | [] => .ok vres
    | _ :: _ => .error .trailingGarbage

/-- Modelled from the spec: the library `json.loads` used by the wrapper
(spec section 4.1), on a Lean `String`. -/
def json_loads (s : String) : Except ParseErr Value := parseTop s.data

/-! ### Reference grammar (RFC 8259, spec section 4.1)

The grammar is stated as inductive relations `G… s r`: a phrase of the
given sort is a prefix of `s` whose remainder is `r`.  The parser is
proved sound against it: whatever the parser accepts is grammatical. -/

/-- Characters that are all JSON whitespace. -/
def wsOnly (l : List Char) : Bool := l.all isWsChar

/-- Fraction part: empty, or a dot followed by at least one digit. -/
def fracPartOk : List Char → Bool
  | [] => true
  | c :: rest => c = '.' && (!rest.isEmpty && rest.all isDigitCh)

/-- Mandatory exponent digits: a nonempty digit run. -/
def expDigitsOk (ds : List Char) : Bool := !ds.isEmpty && ds.all isDigitCh

/-- Exponent body: an optional sign, then mandatory digits. -/
def expTailOk (l : List Char) : Bool :=
  match l with
  | [] => false
  | c :: rest => if c = '+' || c = '-' then expDigitsOk rest else expDigitsOk l

/-- Exponent part: empty, or an exponent marker and its body. -/
def expPartOk : List Char → Bool
  | [] => true
  | c :: rest => (c = 'e' || c = 'E') && expTailOk rest

/-- Grammar of a JSON number: optional minus, integer part obeying the
leading-zero rule, optional fraction, optional exponent. -/
inductive GNumber : List Char → List Char → Prop
  | mk (neg ids frac ex r : List Char) :
      (neg = [] ∨ neg = ['-']) → intPartOk ids = true →
      fracPartOk frac = true → expPartOk ex = true →
      GNumber (neg ++ (ids ++ (frac ++ (ex ++ r)))) r

/-- Grammar of a string literal body after the opening quote: content
characters, single-character escapes and hexadecimal escapes up to the
closing quote. -/
inductive GStrTail : List Char → List Char → Prop
  | close (r) : GStrTail ('"' :: r) r
  | plain (c s r) : c ≠ '"' → c ≠ '\\' → 32 ≤ c.toNat → GStrTail s r →
      GStrTail (c :: s) r
  | esc (e s r) : (unescape e).isSome = true → GStrTail s r →
      GStrTail ('\\' :: e :: s) r
  | uesc (a b c d s r) : (hexQuad a b c d).isSome = true → GStrTail s r →
      GStrTail ('\\' :: 'u' :: a :: b :: c :: d :: s) r

mutual

/-- Grammar of one JSON value (without leading whitespace). -/
inductive GVal : List Char → List Char → Prop
  | gnull (r) : GVal ('n' :: 'u' :: 'l' :: 'l' :: r) r
  | gtrue (r) : GVal ('t' :: 'r' :: 'u' :: 'e' :: r) r
  | gfalse (r) : GVal ('f' :: 'a' :: 'l' :: 's' :: 'e' :: r) r
  | gstr (s r) : GStrTail s r → GVal ('"' :: s) r
  | gnum (s r) : GNumber s r → GVal s r
  | garrEmpty (w r) : wsOnly w = true → GVal ('[' :: (w ++ (']' :: r))) r
  | garr (s r) : GElems s r → GVal ('[' :: s) r
  | gobjEmpty (w r) : wsOnly w = true → GVal ('\x7b' :: (w ++ ('\x7d' :: r))) r
  | gobj (s r) : GMembers s r → GVal ('\x7b' :: s) r

/-- Grammar of one-or-more comma-separated array elements followed by the
closing bracket, each element wrapped in whitespace. -/
inductive GElems : List Char → List Char → Prop
  | last (w1 s w2 r) : wsOnly w1 = true → wsOnly w2 = true →
      GVal s (w2 ++ (']' :: r)) → GElems (w1 ++ s) r
  | more (w1 s w2 t r) : wsOnly w1 = true → wsOnly w2 = true →
      GVal s (w2 ++ (',' :: t)) → GElems t r → GElems (w1 ++ s) r

/-- Grammar of one-or-more comma-separated object members (string key,
colon, value) followed by the closing brace, whitespace allowed around
tokens. -/
inductive GMembers : List Char → List Char → Prop
  | last (w1 t w2 w3 s w4 r) : wsOnly w1 = true → wsOnly w2 = true →
      wsOnly w3 = true → wsOnly w4 = true →
      GStrTail t (w2 ++ (':' :: (w3 ++ s))) → GVal s (w4 ++ ('\x7d' :: r)) →
      GMembers (w1 ++ ('"' :: t)) r
  | more (w1 t w2 w3 s w4 u r) : wsOnly w1 = true → wsOnly w2 = true →
      wsOnly w3 = true → wsOnly w4 = true →
      GStrTail t (w2 ++ (':' :: (w3 ++ s))) → GVal s (w4 ++ (',' :: u)) →
      GMembers u r → GMembers (w1 ++ ('"' :: t)) r

end

/-- A text that is a single well-formed top-level JSON value: whitespace,
one grammatical value, whitespace. -/
def IsJsonText (cs : List Char) : Prop :=
  ∃ w s r, wsOnly w = true ∧ wsOnly r = true ∧ cs = w ++ s ∧ GVal s r

/-! ### JSON serializer (spec section 4.2)

Modelled from the spec: the library serializer used by `save_json`
(`json.dump` with `ensure_ascii := False`).  Key order is the map's
internal order; strings are escaped per JSON rules (quote, backslash,
control characters), other characters are emitted literally;
integral-valued numbers print without a fractional part, other finite
numbers in mantissa/exponent form, and non-finite numbers as the
library's `NaN`/`Infinity` tokens.  Pretty-printing whitespace
(`indent := 2`) is presentation only and is not modelled. -/

/-- Lower-case hexadecimal digit character. -/
def hexDigitCh (n : Nat) : Char :=
  if n < 10 then Char.ofNat (48 + n) else Char.ofNat (87 + (n - 10))

/-- JSON escape of one character. -/
def escapeChar (c : Char) : List Char :=
  if c = '"' then ['\\', '"']
  else if c = '\\' then ['\\', '\\']
  else if c = Char.ofNat 8 then ['\\', 'b']
  else if c = Char.ofNat 12 then ['\\', 'f']
  else if c = '\n' then ['\\', 'n']
  else if c = '\r' then ['\\', 'r']
  else if c = '\t' then ['\\', 't']
  else if c.toNat < 32 then
    ['\\', 'u', '0', '0', hexDigitCh (c.toNat / 16), hexDigitCh (c.toNat % 16)]
  else [c]

/-- Escape a whole string body. -/
def escStr : List Char → List Char
  | [] => []
  | c :: cs => escapeChar c ++ escStr cs

/-- Decimal character rendering of an integer. -/
def intChars (i : Int) : List Char :=
  if i < 0 then '-' :: Nat.toDigits 10 i.natAbs else Nat.toDigits 10 i.natAbs

/-- Character rendering of a number. -/
def numChars : JNum → List Char
  | .finite m e =>
    if 0 ≤ e then intChars (m * (10 : Int) ^ e.toNat)
    else intChars m ++ ('e' :: intChars e)
  | .nan => ['N', 'a', 'N']
  | .posInf => "Infinity".data
  | .negInf => '-' :: "Infinity".data

mutual

/-- Render a value tree as JSON text. -/
def renderVal : Value → List Char
  | .vnull => "null".data
  | .vbool true => "true".data
  | .vbool false => "false".data
  | .vnum n => numChars n
  | .vstr str => '"' :: (escStr str ++ ['"'])
  | .vlist xs => '[' :: (renderElems xs ++ [']'])
  | .vmap kvs => '\x7b' :: (renderEntries kvs ++ ['\x7d'])

/-- Render comma-separated list elements. -/
def renderElems : List Value → List Char
  | [] => []
  | [v] => renderVal v
  | v :: vs => renderVal v ++ (',' :: renderElems vs)

/-- Render comma-separated map entries. -/
def renderEntries : List (List Char × Value) → List Char
  | [] => []
  | [(k, v)] => '"' :: (escStr k ++ ('"' :: (':' :: renderVal v)))
  | (k, v) :: kvs =>
    '"' :: (escStr k ++ ('"' :: (':' :: (renderVal v ++ (',' :: renderEntries kvs)))))

end

/-! ### The wrapper class

Translation of `GenericJsonProtobufSerializer` itself (the code under
`src/`): explicit state record, functional file system, `Except` for
raised exceptions.  Python's `None` is `Option.none`; the library calls
inside the methods are the spec-modelled codec above. -/

/-- Contents of one file: the wrapper reads and writes JSON text and
binary container files. -/
inductive FileData where
  | ftext (s : String)
  | fbin (b : List Nat)

/-- A functional file system, mapping a path to its contents. -/
def FileSys : Type := String → Option FileData

/-- Write one file, functionally. -/
def fsWrite (fs : FileSys) (p : String) (d : FileData) : FileSys :=
  fun q => if q = p then some d else fs q

/-- Instance state of `GenericJsonProtobufSerializer`: the three path
fields and the two nullable data fields (`self.data`, the parsed JSON
value, and `self.proto_data`, the converted container message, carried
as the value tree it represents). -/
structure SerializerState where
  input_file_path : String
  protobuf_output_path : String
  json_output_path : String
  data : Option Value
  proto_data : Option Value

/-- The state produced by `__init__` with its default arguments
(source lines 19-34). -/
def initState : SerializerState :=
  { input_file_path := "complex.json"
    protobuf_output_path := "complex-output.pb"
    json_output_path := "output_from_protobuf.json"
    data := none
    proto_data := none }

/-- Exceptions raised by the wrapper's methods. -/
inductive PyError where
  | fileNotFound (path : String)
  | jsonDecodeError (e : ParseErr)
  | valueError
  | encodeError
  | decodeError
deriving DecidableEq, Repr

/-- Python truthiness of a stored JSON value: `None`, `False`, a zero
number, the empty string, the empty list and the empty dict are falsy. -/
def pyTruthy : Value → Bool
  | .vnull => false
  | .vbool b => b
  | .vnum (.finite m _) => m != 0
  | .vnum _ => true
  | .vstr str => !str.isEmpty
  | .vlist xs => !xs.isEmpty
  | .vmap kvs => !kvs.isEmpty

/-- Truthiness of a nullable stored field: `None` is falsy, a held value
has Python truthiness.  For `proto_data` this encodes that the `Struct`
well-known type defines `__len__` (the number of top-level fields) and
no `__bool__`, so an empty container is falsy like an empty dict. -/
def optTruthy : Option Value → Bool
  | none => false
  | some v => pyTruthy v

/-- Translation of `load_data` (source lines 43-61): open the input
file, parse it as JSON, store the result in `self.data`; a missing file
raises `FileNotFoundError` and malformed JSON re-raises
`json.JSONDecodeError`.  A binary file read as text fails to parse.
Returns the result paired with the post-call state. -/
def load_data (fs : FileSys) (st : SerializerState) :
    Except PyError Value × SerializerState :=
  match fs st.input_file_path with
  | none => (.error (.fileNotFound st.input_file_path), st)
  | some (.fbin _) => (.error (.jsonDecodeError .unexpectedChar), st)
  | some (.ftext s) =>
    match json_loads s with
    | .ok j => (.ok j, { st with data := some j })
    | .error e => (.error (.jsonDecodeError e), st)

/-- Translation of `json_to_protobuf` (source lines 63-91): use the
explicit argument, or fall back to `self.data`, raising `ValueError`
when neither is present; convert to the container
(`json_format.ParseDict` into a fresh `Struct` — in the spec's codec the
container represents any value tree, so conversion is the identity and
cannot fail) and store it in `self.proto_data` before returning it. -/
def json_to_protobuf (json_data : Option Value) (st : SerializerState) :
    Except PyError Value × SerializerState :=
  match json_data with
  | none =>
    match st.data with
    | none => (.error .valueError, st)
    | some j => (.ok j, { st with proto_data := some j })
  | some j => (.ok j, { st with proto_data := some j })

/-- Serialization and write shared by `save_protobuf`'s exit
(`self.proto_data.SerializeToString()`, the spec's binary encoder, then
the file write; source lines 107-109). -/
def writeProto (fs : FileSys) (st : SerializerState) :
    Except PyError Unit × FileSys × SerializerState :=
  match st.proto_data with
  | some j =>
    match encodeVal j with
    | .ok bs => (.ok (), fsWrite fs st.protobuf_output_path (.fbin bs), st)
    | .error _ => (.error .encodeError, fs, st)
  | none => (.error .valueError, fs, st)

/-- Translation of `save_protobuf` (source lines 93-109): when
`self.proto_data` is falsy, fall back to converting a truthy `self.data`
and raise `ValueError` otherwise; then serialize and write. -/
def save_protobuf (fs : FileSys) (st : SerializerState) :
    Except PyError Unit × FileSys × SerializerState :=
  if optTruthy st.proto_data then writeProto fs st
  else if optTruthy st.data then
    match json_to_protobuf none st with
    | (.ok _, st1) => writeProto fs st1
    | (.error e, st1) => (.error e, fs, st1)
  else (.error .valueError, fs, st)

/-- Translation of `load_protobuf` (source lines 111-132): a missing
file raises `FileNotFoundError`; otherwise the bytes are parsed into a
fresh container (`ParseFromString`, the spec's binary decoder, which
rejects malformed input with a `DecodeError`) and stored in
`self.proto_data`.  A text file read as binary fails to decode. -/
def load_protobuf (fs : FileSys) (st : SerializerState) :
    Except PyError Value × SerializerState :=
  match fs st.protobuf_output_path with
  | none => (.error (.fileNotFound st.protobuf_output_path), st)
  | some (.ftext _) => (.error .decodeError, st)
  | some (.fbin bs) =>
    match decode bs with
    | .ok v => (.ok v, { st with proto_data := some v })
    | .error _ => (.error .decodeError, st)

/-- Translation of `protobuf_to_json` (source lines 134-150): a falsy
`self.proto_data` (absent, or an empty container) raises `ValueError`;
otherwise convert back (`json_format.MessageToDict`, the identity on the
carried tree) and store the result in `self.data`. -/
def protobuf_to_json (st : SerializerState) : Except PyError Value × SerializerState :=
  if optTruthy st.proto_data then
    match st.proto_data with
    | some j => (.ok j, { st with data := some j })
    | none => (.error .valueError, st)
  else (.error .valueError, st)

/-- Serialization and write shared by `save_json`'s exit (`json.dump` of
`self.data`, the spec's JSON serializer; source lines 172-173). -/
def writeJson (path : String) (fs : FileSys) (st : SerializerState) :
    Except PyError Unit × FileSys × SerializerState :=
  match st.data with
  | some j => (.ok (), fsWrite fs path (.ftext (String.mk (renderVal j))), st)
  | none => (.error .valueError, fs, st)

/-- Translation of `save_json` (source lines 152-173): pick the explicit
output path or the default; a falsy `self.data` falls back to
`protobuf_to_json` when `self.proto_data` is truthy and raises
`ValueError` otherwise; then serialize `self.data` and write it. -/
def save_json (output_file_path : Option String) (fs : FileSys) (st : SerializerState) :
    Except PyError Unit × FileSys × SerializerState :=
  let path := output_file_path.getD st.json_output_path
  if optTruthy st.data then writeJson path fs st
  else if optTruthy st.proto_data then
    match protobuf_to_json st with
    | (.ok _, st1) => writeJson path fs st1
    | (.error e, st1) => (.error e, fs, st1)
  else (.error .valueError, fs, st)

/-- Translation of `convert_string` (source lines 175-196): parse the
JSON string, convert via `json_to_protobuf` (which stores the container
in `self.proto_data`), and return the serialized binary data. -/
def convert_string (json_string : String) (st : SerializerState) :
    Except PyError (List Nat) × SerializerState :=
  match json_loads json_string with
  | .error e => (.error (.jsonDecodeError e), st)
  | .ok j =>
    match json_to_protobuf (some j) st with
    | (.ok pj, st1) =>
      match encodeVal pj with
      | .ok bs => (.ok bs, st1)
      | .error _ => (.error .encodeError, st1)
    | (.error e, st1) => (.error e, st1)

/-- Helper for `convert_file`'s `finally`: restore the two path fields
captured before the call (source lines 211-213 and 224-227). -/
def restorePaths (st orig : SerializerState) : SerializerState :=
  { st with input_file_path := orig.input_file_path
            protobuf_output_path := orig.protobuf_output_path }

/-- Translation of `convert_file` (source lines 198-227): temporarily
point the instance at the given paths, run load, convert and save, and
restore the original paths in a `finally` on every exit path. -/
def convert_file (fs : FileSys) (st : SerializerState) (input_path output_path : String) :
    Except PyError Unit × FileSys × SerializerState :=
  match load_data fs
      { st with input_file_path := input_path, protobuf_output_path := output_path } with
  | (.error e, st2) => (.error e, fs, restorePaths st2 st)
  | (.ok _, st2) =>
    match json_to_protobuf none st2 with
    | (.error e, st3) => (.error e, fs, restorePaths st3 st)
    | (.ok _, st3) =>
      match save_protobuf fs st3 with
      | (.ok u, fs1, st4) => (.ok u, fs1, restorePaths st4 st)
      | (.error e, fs1, st4) => (.error e, fs1, restorePaths st4 st)

/-! ### Concrete scenario inputs -/

/-- The spec's malformed text `\x7b"a": \x7d` (scenario: missing value). -/
def missingValueText : List Char := "\x7b\"a\": \x7d".data

/-- A well-formed value followed by trailing garbage. -/
def trailingGarbageText : List Char := "[]x".data

/-- A file system holding the JSON text `\x7b\x7d` at the default input path. -/
def fsEmptyObj : FileSys :=
  fun p => if p = "complex.json" then some (.ftext "\x7b\x7d") else none

/-- The serializer state after loading the empty object. -/
def stLoaded : SerializerState := { initState with data := some (.vmap []) }

/-- The serializer state after loading and converting the empty object. -/
def stConverted : SerializerState :=
  { initState with data := some (.vmap []), proto_data := some (.vmap []) }

/-! ### Round-trip of the byte-level primitives -/

theorem decNat_natBytes (n : Nat) : ∀ rest, decNat (natBytes n ++ rest) = some (n, rest) := by
  induction n using Nat.strong_induction_on with
  | _ n ih =>
    intro rest
    rw [natBytes]
    by_cases h : n < 128
    · simp [h, decNat]
    · have hlt : n / 128 < n := Nat.div_lt_self (by omega) (by omega)
      simp only [h, if_false, List.cons_append, decNat]
      rw [ih (n / 128) hlt rest]
      simp only [if_neg (by omega : ¬ (n % 128 + 128 < 128))]
      have hsum : n % 128 + 128 - 128 + 128 * (n / 128) = n := by omega
      rw [hsum]

theorem unzig_zig (i : Int) : unzig (zig i) = i := by
  cases i with
  | ofNat n =>
    have h2 : 2 * n / 2 = n := by omega
    simp [zig, unzig, Nat.mul_mod_right, h2]
  | negSucc n =>
    have hodd : (2 * n + 1) % 2 = 1 := by omega
    have h2 : (2 * n + 1) / 2 = n := by omega
    simp [zig, unzig, hodd, h2]

theorem decChars_strBytes (s : List Char) :
    ∀ rest, decChars s.length (strBytes s ++ rest) = some (s, rest) := by
  induction s with
  | nil => intro rest; simp [strBytes, decChars]
  | cons c cs ih =>
    intro rest
    simp only [List.length_cons, strBytes, charBytes, decChars, List.append_assoc,
      decNat_natBytes]
    rw [dif_pos (show Nat.isValidChar c.toNat from c.valid), ih rest, Char.ofNat_toNat]

/-! ### Codec round-trip (spec section 8, "Binary round-trip") -/

mutual

/-- Fuel bound: an encoded value's node count is dominated by twice its
byte length (each node occupies at least its tag byte). -/
theorem nodesVal_le_encodeVal : ∀ (v : Value) (bs : List Nat), encodeVal v = .ok bs →
    nodesVal v + 1 ≤ 2 * bs.length
  | .vnull, bs, h => by
    simp only [encodeVal, Except.ok.injEq] at h
    subst h
    simp [nodesVal]
  | .vbool b, bs, h => by
    simp only [encodeVal, Except.ok.injEq] at h
    subst h
    simp [nodesVal]
  | .vnum (.finite m e), bs, h => by
    simp only [encodeVal, Except.ok.injEq] at h
    subst h
    simp only [nodesVal, List.length_cons, List.length_append]
    omega
  | .vnum .nan, bs, h => by simp [encodeVal] at h
  | .vnum .posInf, bs, h => by simp [encodeVal] at h
  | .vnum .negInf, bs, h => by simp [encodeVal] at h
  | .vstr s, bs, h => by
    simp only [encodeVal, Except.ok.injEq] at h
    subst h
    simp only [nodesVal, List.length_cons, List.length_append]
    omega
  | .vlist xs, bs, h => by
    simp only [encodeVal] at h
    cases hE : encodeElems xs with
    | error e => rw [hE] at h; exact absurd h (by simp)
    | ok b =>
      rw [hE] at h
      simp only [Except.ok.injEq] at h
      subst h
      have hB := nodesElems_le_encodeElems xs b hE
      simp only [nodesVal, List.length_cons, List.length_append]
      omega
  | .vmap kvs, bs, h => by
    simp only [encodeVal] at h
    cases hE : encodeEntries kvs with
    | error e => rw [hE] at h; exact absurd h (by simp)
    | ok b =>
      rw [hE] at h
      simp only [Except.ok.injEq] at h
      subst h
      have hC := nodesEntries_le_encodeEntries kvs b hE
      simp only [nodesVal, List.length_cons, List.length_append]
      omega

/-- Fuel bound for encoded list elements. -/
theorem nodesElems_le_encodeElems : ∀ (vs : List Value) (bs : List Nat),
    encodeElems vs = .ok bs → nodesElems vs ≤ 2 * bs.length
  | [], bs, h => by
    simp only [encodeElems, Except.ok.injEq] at h
    subst h
    simp [nodesElems]
  | v :: vs, bs, h => by
    simp only [encodeElems] at h
    cases hV : encodeVal v with
    | error e => rw [hV] at h; exact absurd h (by simp)
    | ok b1 =>
      rw [hV] at h
      cases hE : encodeElems vs with
      | error e => rw [hE] at h; exact absurd h (by simp)
      | ok b2 =>
        rw [hE] at h
        simp only [Except.ok.injEq] at h
        subst h
        have hA := nodesVal_le_encodeVal v b1 hV
        have hB := nodesElems_le_encodeElems vs b2 hE
        simp only [nodesElems, List.length_append]
        omega

/-- Fuel bound for encoded map entries. -/
theorem nodesEntries_le_encodeEntries : ∀ (kvs : List (List Char × Value)) (bs : List Nat),
    encodeEntries kvs = .ok bs → nodesEntries kvs ≤ 2 * bs.length
  | [], bs, h => by
    simp only [encodeEntries, Except.ok.injEq] at h
    subst h
    simp [nodesEntries]
  | (k, v) :: kvs, bs, h => by
    simp only [encodeEntries] at h
    cases hV : encodeVal v with
    | error e => rw [hV] at h; exact absurd h (by simp)
    | ok b1 =>
      rw [hV] at h
      cases hE : encodeEntries kvs with
      | error e => rw [hE] at h; exact absurd h (by simp)
      | ok b2 =>
        rw [hE] at h
        simp only [Except.ok.injEq] at h
        subst h
        have hA := nodesVal_le_encodeVal v b1 hV
        have hC := nodesEntries_le_encodeEntries kvs b2 hE
        simp only [nodesEntries, List.length_append]
        omega

end

mutual

/-- Decoding inverts encoding: with enough fuel, the decoder returns the
encoded value and the untouched remainder of the buffer. -/
theorem decodeVal_encodeVal : ∀ (v : Value) (bs : List Nat), encodeVal v = .ok bs →
    ∀ (fuel : Nat) (rest : List Nat), nodesVal v ≤ fuel →
    decodeVal fuel (bs ++ rest) = .ok (v, rest)
  | .vnull, bs, h, fuel, rest, hf => by
    simp only [encodeVal, Except.ok.injEq] at h
    subst h
    obtain ⟨f, rfl⟩ : ∃ f, fuel = f + 1 := ⟨fuel - 1, by simp [nodesVal] at hf; omega⟩
    rfl
  | .vbool b, bs, h, fuel, rest, hf => by
    simp only [encodeVal, Except.ok.injEq] at h
    subst h
    obtain ⟨f, rfl⟩ : ∃ f, fuel = f + 1 := ⟨fuel - 1, by simp [nodesVal] at hf; omega⟩
    cases b <;> rfl
  | .vnum (.finite m e), bs, h, fuel, rest, hf => by
    simp only [encodeVal, Except.ok.injEq] at h
    subst h
    obtain ⟨f, rfl⟩ : ∃ f, fuel = f + 1 := ⟨fuel - 1, by simp [nodesVal] at hf; omega⟩
    simp [decodeVal, List.append_assoc, decNat_natBytes, unzig_zig]
  | .vnum .nan, bs, h, fuel, rest, hf => by simp [encodeVal] at h
  | .vnum .posInf, bs, h, fuel, rest, hf => by simp [encodeVal] at h
  | .vnum .negInf, bs, h, fuel, rest, hf => by simp [encodeVal] at h
  | .vstr s, bs, h, fuel, rest, hf => by
    simp only [encodeVal, Except.ok.injEq] at h
    subst h
    obtain ⟨f, rfl⟩ : ∃ f, fuel = f + 1 := ⟨fuel - 1, by simp [nodesVal] at hf; omega⟩
    simp [decodeVal, List.append_assoc, decNat_natBytes, decChars_strBytes]
  | .vlist xs, bs, h, fuel, rest, hf => by
    simp only [encodeVal] at h
    cases hE : encodeElems xs with
    | error e => rw [hE] at h; exact absurd h (by simp)
    | ok b =>
      rw [hE] at h
      simp only [Except.ok.injEq] at h
      subst h
      simp only [nodesVal] at hf
      obtain ⟨f, rfl⟩ : ∃ g, fuel = g + 1 := ⟨fuel - 1, by omega⟩
      have hElems := decodeElems_encodeElems xs b hE f rest (by omega)
      simp [decodeVal, List.append_assoc, decNat_natBytes, hElems]
  | .vmap kvs, bs, h, fuel, rest, hf => by
    simp only [encodeVal] at h
    cases hE : encodeEntries kvs with
    | error e => rw [hE] at h; exact absurd h (by simp)
    | ok b =>
      rw [hE] at h
      simp only [Except.ok.injEq] at h
      subst h
      simp only [nodesVal] at hf
      obtain ⟨f, rfl⟩ : ∃ g, fuel = g + 1 := ⟨fuel - 1, by omega⟩
      have hEntries := decodeEntries_encodeEntries kvs b hE f rest (by omega)
      simp [decodeVal, List.append_assoc, decNat_natBytes, hEntries]

/-- Decoding inverts encoding on a list of elements. -/
theorem decodeElems_encodeElems : ∀ (vs : List Value) (bs : List Nat),
    encodeElems vs = .ok bs →
    ∀ (fuel : Nat) (rest : List Nat), nodesElems vs ≤ fuel →
    decodeElems fuel vs.length (bs ++ rest) = .ok (vs, rest)
  | [], bs, h, fuel, rest, _hf => by
    simp only [encodeElems, Except.ok.injEq] at h
    subst h
    simp [decodeElems]
  | v :: vs, bs, h, fuel, rest, hf => by
    simp only [encodeElems] at h
    cases hV : encodeVal v with
    | error e => rw [hV] at h; exact absurd h (by simp)
    | ok b1 =>
      rw [hV] at h
      cases hE : encodeElems vs with
      | error e => rw [hE] at h; exact absurd h (by simp)
      | ok b2 =>
        rw [hE] at h
        simp only [Except.ok.injEq] at h
        subst h
        simp only [nodesElems] at hf
        obtain ⟨f, rfl⟩ : ∃ g, fuel = g + 1 := ⟨fuel - 1, by omega⟩
        have hHead := decodeVal_encodeVal v b1 hV f (b2 ++ rest) (by omega)
        have hTail := decodeElems_encodeElems vs b2 hE f rest (by omega)
        simp only [List.length_cons, List.append_assoc, decodeElems, hHead, hTail]

/-- Decoding inverts encoding on a map's entries. -/
theorem decodeEntries_encodeEntries : ∀ (kvs : List (List Char × Value)) (bs : List Nat),
    encodeEntries kvs = .ok bs →
    ∀ (fuel : Nat) (rest : List Nat), nodesEntries kvs ≤ fuel →
    decodeEntries fuel kvs.length (bs ++ rest) = .ok (kvs, rest)
  | [], bs, h, fuel, rest, _hf => by
    simp only [encodeEntries, Except.ok.injEq] at h
    subst h
    simp [decodeEntries]
  | (k, v) :: kvs, bs, h, fuel, rest, hf => by
    simp only [encodeEntries] at h
    cases hV : encodeVal v with
    | error e => rw [hV] at h; exact absurd h (by simp)
    | ok b1 =>
      rw [hV] at h
      cases hE : encodeEntries kvs with
      | error e => rw [hE] at h; exact absurd h (by simp)
      | ok b2 =>
        rw [hE] at h
        simp only [Except.ok.injEq] at h
        subst h
        simp only [nodesEntries] at hf
        obtain ⟨f, rfl⟩ : ∃ g, fuel = g + 1 := ⟨fuel - 1, by omega⟩
        have hHead := decodeVal_encodeVal v b1 hV f (b2 ++ rest) (by omega)
        have hTail := decodeEntries_encodeEntries kvs b2 hE f rest (by omega)
        simp only [List.length_cons, List.append_assoc, decodeEntries,
          decNat_natBytes, decChars_strBytes, hHead, hTail]

end

mutual

/-- Encoding succeeds on every all-finite value tree. -/
theorem encodeVal_ok_of_allFinite : ∀ (v : Value), Value.allFinite v = true →
    ∃ bs, encodeVal v = .ok bs
  | .vnull, _ => ⟨[0], rfl⟩
  | .vbool b, _ => ⟨[1, cond b 1 0], rfl⟩
  | .vnum (.finite m e), _ => ⟨2 :: (natBytes (zig m) ++ natBytes (zig e)), rfl⟩
  | .vnum .nan, h => by simp [Value.allFinite, JNum.isFinite] at h
  | .vnum .posInf, h => by simp [Value.allFinite, JNum.isFinite] at h
  | .vnum .negInf, h => by simp [Value.allFinite, JNum.isFinite] at h
  | .vstr s, _ => ⟨3 :: (natBytes s.length ++ strBytes s), rfl⟩
  | .vlist xs, h => by
    have hxs : allFiniteElems xs = true := by simpa [Value.allFinite] using h
    obtain ⟨bs, hbs⟩ := encodeElems_ok_of_allFinite xs hxs
    exact ⟨4 :: (natBytes xs.length ++ bs), by simp [encodeVal, hbs]⟩
  | .vmap kvs, h => by
    have hkvs : allFiniteEntries kvs = true := by simpa [Value.allFinite] using h
    obtain ⟨bs, hbs⟩ := encodeEntries_ok_of_allFinite kvs hkvs
    exact ⟨5 :: (natBytes kvs.length ++ bs), by simp [encodeVal, hbs]⟩

/-- Encoding succeeds on a list of all-finite values. -/
theorem encodeElems_ok_of_allFinite : ∀ (vs : List Value), allFiniteElems vs = true →
    ∃ bs, encodeElems vs = .ok bs
  | [], _ => ⟨[], rfl⟩
  | v :: vs, h => by
    simp only [allFiniteElems, Bool.and_eq_true] at h
    obtain ⟨b1, hb1⟩ := encodeVal_ok_of_allFinite v h.1
    obtain ⟨b2, hb2⟩ := encodeElems_ok_of_allFinite vs h.2
    exact ⟨b1 ++ b2, by simp [encodeElems, hb1, hb2]⟩

/-- Encoding succeeds on all-finite map entries. -/
theorem encodeEntries_ok_of_allFinite : ∀ (kvs : List (List Char × Value)),
    allFiniteEntries kvs = true → ∃ bs, encodeEntries kvs = .ok bs
  | [], _ => ⟨[], rfl⟩
  | (k, v) :: kvs, h => by
    simp only [allFiniteEntries, Bool.and_eq_true] at h
    obtain ⟨b1, hb1⟩ := encodeVal_ok_of_allFinite v h.1
    obtain ⟨b2, hb2⟩ := encodeEntries_ok_of_allFinite kvs h.2
    exact ⟨(natBytes k.length ++ strBytes k) ++ (b1 ++ b2), by simp [encodeEntries, hb1, hb2]⟩

end

mutual

/-- A tree is all-finite exactly when it holds no non-finite number. -/
theorem allFinite_eq_not_hasNonFinite : ∀ (v : Value),
    Value.allFinite v = !(Value.hasNonFinite v)
  | .vnull => rfl
  | .vbool _ => rfl
  | .vnum (.finite _ _) => rfl
  | .vnum .nan => rfl
  | .vnum .posInf => rfl
  | .vnum .negInf => rfl
  | .vstr _ => rfl
  | .vlist xs => by
    simp [Value.allFinite, Value.hasNonFinite, allFiniteElems_eq_not_hasNonFiniteElems xs]
  | .vmap kvs => by
    simp [Value.allFinite, Value.hasNonFinite, allFiniteEntries_eq_not_hasNonFiniteEntries kvs]

/-- List version of `allFinite_eq_not_hasNonFinite`. -/
theorem allFiniteElems_eq_not_hasNonFiniteElems : ∀ (vs : List Value),
    allFiniteElems vs = !(hasNonFiniteElems vs)
  | [] => rfl
  | v :: vs => by
    simp [allFiniteElems, hasNonFiniteElems, allFinite_eq_not_hasNonFinite v,
      allFiniteElems_eq_not_hasNonFiniteElems vs]

/-- Entry version of `allFinite_eq_not_hasNonFinite`. -/
theorem allFiniteEntries_eq_not_hasNonFiniteEntries : ∀ (kvs : List (List Char × Value)),
    allFiniteEntries kvs = !(hasNonFiniteEntries kvs)
  | [] => rfl
  | kv :: kvs => by
    simp [allFiniteEntries, hasNonFiniteEntries, allFinite_eq_not_hasNonFinite kv.2,
      allFiniteEntries_eq_not_hasNonFiniteEntries kvs]

end

mutual

/-- Encoding fails with the non-finite `EncodeError` on any tree holding a
NaN or infinity. -/
theorem encodeVal_error_of_hasNonFinite : ∀ (v : Value), Value.hasNonFinite v = true →
    encodeVal v = .error .nonFinite
  | .vnull, h => by simp [Value.hasNonFinite] at h
  | .vbool b, h => by simp [Value.hasNonFinite] at h
  | .vnum (.finite m e), h => by simp [Value.hasNonFinite, JNum.isFinite] at h
  | .vnum .nan, _ => rfl
  | .vnum .posInf, _ => rfl
  | .vnum .negInf, _ => rfl
  | .vstr s, h => by simp [Value.hasNonFinite] at h
  | .vlist xs, h => by
    have hxs : hasNonFiniteElems xs = true := by simpa [Value.hasNonFinite] using h
    have := encodeElems_error_of_hasNonFinite xs hxs
    simp [encodeVal, this]
  | .vmap kvs, h => by
    have hkvs : hasNonFiniteEntries kvs = true := by simpa [Value.hasNonFinite] using h
    have := encodeEntries_error_of_hasNonFinite kvs hkvs
    simp [encodeVal, this]

/-- Elementwise version of the non-finite rejection. -/
theorem encodeElems_error_of_hasNonFinite : ∀ (vs : List Value),
    hasNonFiniteElems vs = true → encodeElems vs = .error .nonFinite
  | [], h => by simp [hasNonFiniteElems] at h
  | v :: vs, h => by
    simp only [hasNonFiniteElems, Bool.or_eq_true] at h
    cases h with
    | inl hv =>
      have := encodeVal_error_of_hasNonFinite v hv
      simp [encodeElems, this]
    | inr hvs =>
      by_cases hv : Value.hasNonFinite v = true
      · have := encodeVal_error_of_hasNonFinite v hv
        simp [encodeElems, this]
      · have hfin : Value.allFinite v = true := by
          have := allFinite_eq_not_hasNonFinite v
          simp [this, hv]
        obtain ⟨b1, hb1⟩ := encodeVal_ok_of_allFinite v hfin
        have := encodeElems_error_of_hasNonFinite vs hvs
        simp [encodeElems, hb1, this]

/-- Entrywise version of the non-finite rejection. -/
theorem encodeEntries_error_of_hasNonFinite : ∀ (kvs : List (List Char × Value)),
    hasNonFiniteEntries kvs = true → encodeEntries kvs = .error .nonFinite
  | [], h => by simp [hasNonFiniteEntries] at h
  | (k, v) :: kvs, h => by
    simp only [hasNonFiniteEntries, Bool.or_eq_true] at h
    cases h with
    | inl hv =>
      have := encodeVal_error_of_hasNonFinite v hv
      simp [encodeEntries, this]
    | inr hkvs =>
      by_cases hv : Value.hasNonFinite v = true
      · have := encodeVal_error_of_hasNonFinite v hv
        simp [encodeEntries, this]
      · have hfin : Value.allFinite v = true := by
          have := allFinite_eq_not_hasNonFinite v
          simp [this, hv]
        obtain ⟨b1, hb1⟩ := encodeVal_ok_of_allFinite v hfin
        have := encodeEntries_error_of_hasNonFinite kvs hkvs
        simp [encodeEntries, hb1, this]

end

/-! ### Parser soundness: lexical helpers -/

theorem skipWs_decomp (cs : List Char) :
    ∃ w, cs = w ++ skipWs cs ∧ wsOnly w = true := by
  induction cs with
  | nil => exact ⟨[], rfl, rfl⟩
  | cons c cs ih =>
    by_cases hc : isWsChar c = true
    · obtain ⟨w, hw, hws⟩ := ih
      refine ⟨c :: w, ?_, ?_⟩
      · simp [skipWs, hc]
        exact hw
      · simp [wsOnly] at hws ⊢
        exact ⟨hc, hws⟩
    · exact ⟨[], by simp [skipWs, hc], rfl⟩

theorem wsOnly_of_skipWs_nil (cs : List Char) (h : skipWs cs = []) : wsOnly cs = true := by
  obtain ⟨w, hw, hws⟩ := skipWs_decomp cs
  rw [h, List.append_nil] at hw
  rw [hw]
  exact hws

theorem takeDigits_decomp (cs : List Char) :
    ∀ ds r, takeDigits cs = (ds, r) → cs = ds ++ r ∧ ds.all isDigitCh = true := by
  induction cs with
  | nil =>
    intro ds r h
    simp only [takeDigits, Prod.mk.injEq] at h
    obtain ⟨h1, h2⟩ := h
    subst h1
    subst h2
    simp
  | cons c cs ih =>
    intro ds r h
    by_cases hc : isDigitCh c = true
    · simp only [takeDigits, hc, if_true] at h
      rcases htd : takeDigits cs with ⟨ds0, r0⟩
      rw [htd] at h
      obtain ⟨hds, hr⟩ := Prod.mk.injEq .. ▸ h
      obtain ⟨hcs, hall⟩ := ih ds0 r0 htd
      subst hds
      subst hr
      constructor
      · simp [hcs]
      · simp [List.all_cons, hc, hall]
    · simp only [takeDigits, hc, if_false] at h
      obtain ⟨hds, hr⟩ := Prod.mk.injEq .. ▸ h
      subst hds
      subst hr
      simp

theorem parseStrTail_sound (cs : List Char) :
    ∀ (out r : List Char), parseStrTail cs = .ok (out, r) → GStrTail cs r := by
  induction cs using parseStrTail.induct with
  | case1 =>
    intro out r h
    simp [parseStrTail] at h
  | case2 cs =>
    intro out r h
    rw [parseStrTail.eq_def] at h
    simp at h
    obtain ⟨h1, h2⟩ := h
    subst h1
    subst h2
    exact .close cs
  | case3 hne =>
    intro out r h
    simp [parseStrTail] at h
  | case4 a b c2 d rest3 n hq hvalid str r0 hrec hne ih =>
    intro out r h
    rw [parseStrTail.eq_def] at h
    simp [hq, hvalid, hrec] at h
    obtain ⟨h1, h2⟩ := h
    subst h1
    subst h2
    exact .uesc a b c2 d rest3 r0 (by simp [hq]) (ih str r0 hrec)
  | case5 a b c2 d rest3 n hq hvalid err herr hne ih =>
    intro out r h
    rw [parseStrTail.eq_def] at h
    simp [hq, hvalid, herr] at h
  | case6 a b c2 d rest3 n hq hinvalid hne =>
    intro out r h
    rw [parseStrTail.eq_def] at h
    simp [hq, hinvalid] at h
  | case7 a b c2 d rest3 hq hne =>
    intro out r h
    rw [parseStrTail.eq_def] at h
    simp [hq] at h
  | case8 cs hshort hne =>
    intro out r h
    rw [parseStrTail.eq_def] at h
    rcases cs with _ | ⟨a, _ | ⟨b, _ | ⟨c2, _ | ⟨d, rest3⟩⟩⟩⟩
    · simp at h
    · simp at h
    · simp at h
    · simp at h
    · exact (hshort a b c2 d rest3 rfl).elim
  | case9 e cs hnu ch hesc str r0 hrec hne ih =>
    intro out r h
    rw [parseStrTail.eq_def] at h
    simp [hnu, hesc, hrec] at h
    obtain ⟨h1, h2⟩ := h
    subst h1
    subst h2
    exact .esc e cs r0 (by simp [hesc]) (ih str r0 hrec)
  | case10 e cs hnu ch hesc err herr hne ih =>
    intro out r h
    rw [parseStrTail.eq_def] at h
    simp [hnu, hesc, herr] at h
  | case11 e cs hnu hesc hne =>
    intro out r h
    rw [parseStrTail.eq_def] at h
    simp [hnu, hesc] at h
  | case12 c cs hq hb hctrl =>
    intro out r h
    rw [parseStrTail.eq_def] at h
    simp [hq, hb, hctrl] at h
  | case13 c cs hq hb hctrl str r0 hrec ih =>
    intro out r h
    rw [parseStrTail.eq_def] at h
    simp [hq, hb, hctrl, hrec] at h
    obtain ⟨h1, h2⟩ := h
    subst h1
    subst h2
    exact .plain c cs r0 hq hb (by omega) (ih str r0 hrec)
  | case14 c cs hq hb hctrl err herr ih =>
    intro out r h
    rw [parseStrTail.eq_def] at h
    simp [hq, hb, hctrl, herr] at h

theorem expTailOk_of_digits (eds : List Char) (h : expDigitsOk eds = true) :
    expTailOk eds = true := by
  cases eds with
  | nil => simp [expDigitsOk] at h
  | cons d ds =>
    simp only [expDigitsOk, List.all_cons, Bool.and_eq_true, List.isEmpty_cons,
      Bool.not_false] at h
    have hd : isDigitCh d = true := h.2.1
    have hplus : ¬ d = '+' := by
      rintro rfl
      simp [isDigitCh] at hd
    have hminus : ¬ d = '-' := by
      rintro rfl
      simp [isDigitCh] at hd
    simp [expTailOk, hplus, hminus, expDigitsOk, h.2.1, h.2.2]

theorem parseExpDigits_sound (neg : Bool) (ids fds : List Char) (eneg : Bool)
    (cs : List Char) (jn : JNum) (r : List Char)
    (h : parseExpDigits neg ids fds eneg cs = .ok (jn, r)) :
    ∃ eds, cs = eds ++ r ∧ expDigitsOk eds = true := by
  simp only [parseExpDigits] at h
  rcases htd : takeDigits cs with ⟨eds, r0⟩
  rw [htd] at h
  obtain ⟨hcs, hall⟩ := takeDigits_decomp cs eds r0 htd
  cases eds with
  | nil => simp at h
  | cons d ds =>
    simp only [Except.ok.injEq, Prod.mk.injEq] at h
    obtain ⟨-, h2⟩ := h
    subst h2
    exact ⟨d :: ds, hcs, by simp [expDigitsOk, List.all_cons] at hall ⊢; exact hall⟩

theorem parseExpTail_sound (neg : Bool) (ids fds : List Char) (cs : List Char)
    (jn : JNum) (r : List Char) (h : parseExpTail neg ids fds cs = .ok (jn, r)) :
    ∃ t, cs = t ++ r ∧ expTailOk t = true := by
  rw [parseExpTail.eq_def] at h
  split at h
  · next cs1 =>
    obtain ⟨eds, hcs, hok⟩ := parseExpDigits_sound neg ids fds false cs1 jn r h
    refine ⟨'+' :: eds, by simp [hcs], ?_⟩
    simp [expTailOk, hok]
  · next cs1 =>
    obtain ⟨eds, hcs, hok⟩ := parseExpDigits_sound neg ids fds true cs1 jn r h
    refine ⟨'-' :: eds, by simp [hcs], ?_⟩
    simp [expTailOk, hok]
  · obtain ⟨eds, hcs, hok⟩ := parseExpDigits_sound neg ids fds false cs jn r h
    exact ⟨eds, hcs, expTailOk_of_digits eds hok⟩

theorem parseNumExp_sound (neg : Bool) (ids fds : List Char) (cs : List Char)
    (jn : JNum) (r : List Char) (h : parseNumExp neg ids fds cs = .ok (jn, r)) :
    ∃ ex, cs = ex ++ r ∧ expPartOk ex = true := by
  rw [parseNumExp.eq_def] at h
  split at h
  · next cs1 =>
    obtain ⟨t, hcs, hok⟩ := parseExpTail_sound neg ids fds cs1 jn r h
    refine ⟨'e' :: t, by simp [hcs], ?_⟩
    simp [expPartOk, hok]
  · next cs1 =>
    obtain ⟨t, hcs, hok⟩ := parseExpTail_sound neg ids fds cs1 jn r h
    refine ⟨'E' :: t, by simp [hcs], ?_⟩
    simp [expPartOk, hok]
  · simp only [Except.ok.injEq, Prod.mk.injEq] at h
    obtain ⟨-, h2⟩ := h
    subst h2
    exact ⟨[], rfl, rfl⟩

theorem parseNumAbs_sound (neg : Bool) (cs : List Char) (jn : JNum) (r : List Char)
    (h : parseNumAbs neg cs = .ok (jn, r)) :
    ∃ ids frac ex, cs = ids ++ (frac ++ (ex ++ r)) ∧ intPartOk ids = true ∧
      fracPartOk frac = true ∧ expPartOk ex = true := by
  simp only [parseNumAbs] at h
  rcases htd : takeDigits cs with ⟨ids, cs2⟩
  rw [htd] at h
  obtain ⟨hcs, -⟩ := takeDigits_decomp cs ids cs2 htd
  by_cases hint : intPartOk ids = true
  · rw [if_pos hint] at h
    split at h
    · next cs3 heq =>
      simp only at heq
      rcases htd2 : takeDigits cs3 with ⟨fds, cs4⟩
      rw [htd2] at h
      obtain ⟨hcs3, hall⟩ := takeDigits_decomp cs3 fds cs4 htd2
      cases fds with
      | nil => simp at h
      | cons d ds =>
        obtain ⟨ex, hcs4, hexok⟩ := parseNumExp_sound neg ids (d :: ds) cs4 jn r h
        refine ⟨ids, '.' :: d :: ds, ex, ?_, hint, ?_, hexok⟩
        · subst hcs4
          rw [hcs, heq, hcs3]
          simp
        · simp only [List.all_cons, Bool.and_eq_true] at hall ⊢
          simp [fracPartOk, hall]
    · obtain ⟨ex, hcs2, hexok⟩ := parseNumExp_sound neg ids [] cs2 jn r h
      refine ⟨ids, [], ex, ?_, hint, rfl, hexok⟩
      subst hcs2
      simp [hcs]
  · rw [if_neg hint] at h
    simp at h

theorem parseNumber_sound (cs : List Char) (jn : JNum) (r : List Char)
    (h : parseNumber cs = .ok (jn, r)) : GNumber cs r := by
  rw [parseNumber.eq_def] at h
  split at h
  · next cs1 =>
    obtain ⟨ids, frac, ex, hcs1, hi, hf, he⟩ := parseNumAbs_sound true cs1 jn r h
    rw [hcs1]
    exact GNumber.mk ['-'] ids frac ex r (Or.inr rfl) hi hf he
  · obtain ⟨ids, frac, ex, hcs, hi, hf, he⟩ := parseNumAbs_sound false cs jn r h
    rw [hcs]
    exact GNumber.mk [] ids frac ex r (Or.inl rfl) hi hf he

mutual

/-- Soundness of `parseVal`: an accepted prefix is leading whitespace
followed by a grammatical value. -/
theorem parseVal_sound : ∀ (fuel : Nat) (cs : List Char) (v : Value) (r : List Char),
    parseVal fuel cs = .ok (v, r) →
    ∃ w s, cs = w ++ s ∧ wsOnly w = true ∧ GVal s r
  | 0, cs, v, r, h => by simp [parseVal] at h
  | fuel + 1, cs, v, r, h => by
    obtain ⟨w, hw, hws⟩ := skipWs_decomp cs
    simp only [parseVal] at h
    split at h
    · rename_i r0 heq
      simp only [Except.ok.injEq, Prod.mk.injEq] at h
      obtain ⟨-, h2⟩ := h
      subst h2
      exact ⟨w, _, by rw [hw, heq], hws, GVal.gnull r0⟩
    · rename_i r0 heq
      simp only [Except.ok.injEq, Prod.mk.injEq] at h
      obtain ⟨-, h2⟩ := h
      subst h2
      exact ⟨w, _, by rw [hw, heq], hws, GVal.gtrue r0⟩
    · rename_i r0 heq
      simp only [Except.ok.injEq, Prod.mk.injEq] at h
      obtain ⟨-, h2⟩ := h
      subst h2
      exact ⟨w, _, by rw [hw, heq], hws, GVal.gfalse r0⟩
    · rename_i r0 heq
      split at h
      · rename_i str r2 heq2
        simp only [Except.ok.injEq, Prod.mk.injEq] at h
        obtain ⟨-, h2⟩ := h
        subst h2
        exact ⟨w, _, by rw [hw, heq], hws,
          GVal.gstr r0 r2 (parseStrTail_sound r0 str r2 heq2)⟩
      · simp at h
    · rename_i r0 heq
      split at h
      · rename_i r2 heq2
        simp only [Except.ok.injEq, Prod.mk.injEq] at h
        obtain ⟨-, h2⟩ := h
        subst h2
        obtain ⟨w0, hw0, hws0⟩ := skipWs_decomp r0
        rw [heq2] at hw0
        exact ⟨w, _, by rw [hw, heq], hws, by rw [hw0]; exact GVal.garrEmpty w0 r2 hws0⟩
      · split at h
        · rename_i es r2 heq3
          simp only [Except.ok.injEq, Prod.mk.injEq] at h
          obtain ⟨-, h2⟩ := h
          subst h2
          exact ⟨w, _, by rw [hw, heq], hws,
            GVal.garr r0 r2 (parseElems_sound fuel r0 es r2 heq3)⟩
        · simp at h
    · rename_i r0 heq
      split at h
      · rename_i r2 heq2
        simp only [Except.ok.injEq, Prod.mk.injEq] at h
        obtain ⟨-, h2⟩ := h
        subst h2
        obtain ⟨w0, hw0, hws0⟩ := skipWs_decomp r0
        rw [heq2] at hw0
        exact ⟨w, _, by rw [hw, heq], hws, by rw [hw0]; exact GVal.gobjEmpty w0 r2 hws0⟩
      · split at h
        · rename_i ms r2 heq3
          simp only [Except.ok.injEq, Prod.mk.injEq] at h
          obtain ⟨-, h2⟩ := h
          subst h2
          exact ⟨w, _, by rw [hw, heq], hws,
            GVal.gobj r0 r2 (parseMembers_sound fuel r0 ms r2 heq3)⟩
        · simp at h
    · rename_i c r0 _n1 _n2 _n3 _n4 _n5 _n6 heq
      split at h
      · split at h
        · rename_i jn r2 heq4
          simp only [Except.ok.injEq, Prod.mk.injEq] at h
          obtain ⟨-, h2⟩ := h
          subst h2
          exact ⟨w, _, by rw [hw, heq], hws,
            GVal.gnum (c :: r0) r2 (parseNumber_sound (c :: r0) jn r2 heq4)⟩
        · simp at h
      · simp at h
    · simp at h

/-- Soundness of `parseElems` against `GElems`. -/
theorem parseElems_sound : ∀ (fuel : Nat) (cs : List Char) (es : List Value) (r : List Char),
    parseElems fuel cs = .ok (es, r) → GElems cs r
  | 0, cs, es, r, h => by simp [parseElems] at h
  | fuel + 1, cs, es, r, h => by
    simp only [parseElems] at h
    split at h
    · simp at h
    · rename_i v0 r0 heq
      obtain ⟨w1, s, hcs, hws1, hval⟩ := parseVal_sound fuel cs v0 r0 heq
      obtain ⟨w2, hw2, hws2⟩ := skipWs_decomp r0
      split at h
      · rename_i r2 heq2
        split at h
        · rename_i vs r3 heq3
          simp only [Except.ok.injEq, Prod.mk.injEq] at h
          obtain ⟨-, h2⟩ := h
          subst h2
          rw [heq2] at hw2
          rw [hcs]
          exact GElems.more w1 s w2 r2 r3 hws1 hws2 (by rw [← hw2]; exact hval)
            (parseElems_sound fuel r2 vs r3 heq3)
        · simp at h
      · rename_i r2 heq2
        simp only [Except.ok.injEq, Prod.mk.injEq] at h
        obtain ⟨-, h2⟩ := h
        subst h2
        rw [heq2] at hw2
        rw [hcs]
        exact GElems.last w1 s w2 r2 hws1 hws2 (by rw [← hw2]; exact hval)
      · simp at h

/-- Soundness of `parseMembers` against `GMembers`. -/
theorem parseMembers_sound : ∀ (fuel : Nat) (cs : List Char)
    (ms : List (List Char × Value)) (r : List Char),
    parseMembers fuel cs = .ok (ms, r) → GMembers cs r
  | 0, cs, ms, r, h => by simp [parseMembers] at h
  | fuel + 1, cs, ms, r, h => by
    simp only [parseMembers] at h
    split at h
    · rename_i r0 heq1
      obtain ⟨w1, hw1, hws1⟩ := skipWs_decomp cs
      rw [heq1] at hw1
      split at h
      · simp at h
      · rename_i key r1 heq2
        have hkey := parseStrTail_sound r0 key r1 heq2
        obtain ⟨w2, hw2, hws2⟩ := skipWs_decomp r1
        split at h
        · rename_i r2 heq3
          rw [heq3] at hw2
          split at h
          · simp at h
          · rename_i v0 r3 heq4
            obtain ⟨w3, s, hr2, hws3, hval⟩ := parseVal_sound fuel r2 v0 r3 heq4
            obtain ⟨w4, hw4, hws4⟩ := skipWs_decomp r3
            split at h
            · rename_i r4 heq5
              split at h
              · rename_i ms0 r5 heq6
                simp only [Except.ok.injEq, Prod.mk.injEq] at h
                obtain ⟨-, h2⟩ := h
                subst h2
                rw [heq5] at hw4
                rw [hw1]
                refine GMembers.more w1 r0 w2 w3 s w4 r4 r5 hws1 hws2 hws3 hws4 ?_ ?_
                  (parseMembers_sound fuel r4 ms0 r5 heq6)
                · rw [hw2, hr2] at hkey
                  exact hkey
                · rw [hw4] at hval
                  exact hval
              · simp at h
            · rename_i r4 heq5
              simp only [Except.ok.injEq, Prod.mk.injEq] at h
              obtain ⟨-, h2⟩ := h
              subst h2
              rw [heq5] at hw4
              rw [hw1]
              refine GMembers.last w1 r0 w2 w3 s w4 r4 hws1 hws2 hws3 hws4 ?_ ?_
              · rw [hw2, hr2] at hkey
                exact hkey
              · rw [hw4] at hval
                exact hval
            · simp at h
        · simp at h
    · simp at h

end

/-- Soundness of the document parser: an accepted text is a single
well-formed top-level JSON value. -/
theorem parseTop_sound (cs : List Char) (v : Value) (h : parseTop cs = .ok v) :
    IsJsonText cs := by
  simp only [parseTop] at h
  split at h
  · simp at h
  · rename_i v0 r0 heq
    obtain ⟨w, s, hcs, hws, hval⟩ := parseVal_sound (cs.length + 1) cs v0 r0 heq
    split at h
    · rename_i heq2
      exact ⟨w, s, r0, hws, wsOnly_of_skipWs_nil r0 heq2, hcs, hval⟩
    · simp at h

/-- Round-trip through the whole buffer: decoding an encoding yields the
value back. -/
theorem decode_encodeVal (v : Value) (bs : List Nat) (h : encodeVal v = .ok bs) :
    decode bs = .ok v := by
  have hb := nodesVal_le_encodeVal v bs h
  have hd := decodeVal_encodeVal v bs h (2 * bs.length + 1) [] (by omega)
  rw [List.append_nil] at hd
  simp [decode, hd]

/-- `insertEntry` preserves all-finiteness of the entry list. -/
theorem allFiniteEntries_insertEntry (ms : List (List Char × Value)) (k : List Char)
    (v : Value) (hms : allFiniteEntries ms = true) (hv : v.allFinite = true) :
    allFiniteEntries (insertEntry ms k v) = true := by
  induction ms with
  | nil => simp [insertEntry, allFiniteEntries, hv]
  | cons kv rest ih =>
    simp only [allFiniteEntries, Bool.and_eq_true] at hms
    by_cases hk : kv.1 = k
    · cases kv
      simp_all [insertEntry, allFiniteEntries]
    · cases kv
      simp only at hk
      simp only [insertEntry, if_neg hk, allFiniteEntries, Bool.and_eq_true]
      exact ⟨hms.1, ih hms.2⟩

/-- `buildMap` preserves all-finiteness. -/
theorem allFiniteEntries_buildMap (ms : List (List Char × Value))
    (hms : allFiniteEntries ms = true) : allFiniteEntries (buildMap ms) = true := by
  have hgen : ∀ acc, allFiniteEntries acc = true →
      allFiniteEntries (ms.foldl (fun a kv => insertEntry a kv.1 kv.2) acc) = true := by
    induction ms with
    | nil => intro acc hacc; simpa [buildMap] using hacc
    | cons kv rest ih =>
      intro acc hacc
      simp only [allFiniteEntries, Bool.and_eq_true] at hms
      exact ih hms.2 _ (allFiniteEntries_insertEntry acc kv.1 kv.2 hacc hms.1)
  exact hgen [] rfl

theorem parseExpDigits_finite (neg : Bool) (ids fds : List Char) (eneg : Bool)
    (cs : List Char) (jn : JNum) (r : List Char)
    (h : parseExpDigits neg ids fds eneg cs = .ok (jn, r)) : ∃ m e, jn = .finite m e := by
  simp only [parseExpDigits] at h
  rcases htd : takeDigits cs with ⟨eds, r0⟩
  rw [htd] at h
  cases eds with
  | nil => simp at h
  | cons d ds =>
    simp only [Except.ok.injEq, Prod.mk.injEq] at h
    obtain ⟨h1, -⟩ := h
    subst h1
    exact ⟨_, _, rfl⟩

theorem parseExpTail_finite (neg : Bool) (ids fds cs : List Char) (jn : JNum)
    (r : List Char) (h : parseExpTail neg ids fds cs = .ok (jn, r)) :
    ∃ m e, jn = .finite m e := by
  rw [parseExpTail.eq_def] at h
  split at h
  · exact parseExpDigits_finite _ _ _ _ _ _ _ h
  · exact parseExpDigits_finite _ _ _ _ _ _ _ h
  · exact parseExpDigits_finite _ _ _ _ _ _ _ h

theorem parseNumExp_finite (neg : Bool) (ids fds cs : List Char) (jn : JNum)
    (r : List Char) (h : parseNumExp neg ids fds cs = .ok (jn, r)) :
    ∃ m e, jn = .finite m e := by
  rw [parseNumExp.eq_def] at h
  split at h
  · exact parseExpTail_finite _ _ _ _ _ _ h
  · exact parseExpTail_finite _ _ _ _ _ _ h
  · simp only [Except.ok.injEq, Prod.mk.injEq] at h
    obtain ⟨h1, -⟩ := h
    subst h1
    exact ⟨_, _, rfl⟩

theorem parseNumAbs_finite (neg : Bool) (cs : List Char) (jn : JNum) (r : List Char)
    (h : parseNumAbs neg cs = .ok (jn, r)) : ∃ m e, jn = .finite m e := by
  simp only [parseNumAbs] at h
  rcases htd : takeDigits cs with ⟨ids, cs2⟩
  rw [htd] at h
  by_cases hint : intPartOk ids = true
  · rw [if_pos hint] at h
    split at h
    · rename_i cs3 heq
      rcases htd2 : takeDigits cs3 with ⟨fds, cs4⟩
      rw [htd2] at h
      cases fds with
      | nil => simp at h
      | cons d ds => exact parseNumExp_finite _ _ _ _ _ _ h
    · exact parseNumExp_finite _ _ _ _ _ _ h
  · rw [if_neg hint] at h
    simp at h

theorem parseNumber_isFinite (cs : List Char) (jn : JNum) (r : List Char)
    (h : parseNumber cs = .ok (jn, r)) : ∃ m e, jn = .finite m e := by
  rw [parseNumber.eq_def] at h
  split at h
  · exact parseNumAbs_finite _ _ _ _ h
  · exact parseNumAbs_finite _ _ _ _ h

mutual

/-- The parser only builds finite numbers: every parsed value tree is
all-finite. -/
theorem parseVal_allFinite : ∀ (fuel : Nat) (cs : List Char) (v : Value) (r : List Char),
    parseVal fuel cs = .ok (v, r) → v.allFinite = true
  | 0, cs, v, r, h => by simp [parseVal] at h
  | fuel + 1, cs, v, r, h => by
    simp only [parseVal] at h
    split at h
    · rename_i r0 heq
      simp only [Except.ok.injEq, Prod.mk.injEq] at h
      obtain ⟨h1, -⟩ := h
      subst h1
      rfl
    · rename_i r0 heq
      simp only [Except.ok.injEq, Prod.mk.injEq] at h
      obtain ⟨h1, -⟩ := h
      subst h1
      rfl
    · rename_i r0 heq
      simp only [Except.ok.injEq, Prod.mk.injEq] at h
      obtain ⟨h1, -⟩ := h
      subst h1
      rfl
    · rename_i r0 heq
      split at h
      · rename_i str r2 heq2
        simp only [Except.ok.injEq, Prod.mk.injEq] at h
        obtain ⟨h1, -⟩ := h
        subst h1
        rfl
      · simp at h
    · rename_i r0 heq
      split at h
      · rename_i r2 heq2
        simp only [Except.ok.injEq, Prod.mk.injEq] at h
        obtain ⟨h1, -⟩ := h
        subst h1
        rfl
      · split at h
        · rename_i es r2 heq3
          simp only [Except.ok.injEq, Prod.mk.injEq] at h
          obtain ⟨h1, -⟩ := h
          subst h1
          simpa [Value.allFinite] using parseElems_allFinite fuel r0 es r2 heq3
        · simp at h
    · rename_i r0 heq
      split at h
      · rename_i r2 heq2
        simp only [Except.ok.injEq, Prod.mk.injEq] at h
        obtain ⟨h1, -⟩ := h
        subst h1
        rfl
      · split at h
        · rename_i ms r2 heq3
          simp only [Except.ok.injEq, Prod.mk.injEq] at h
          obtain ⟨h1, -⟩ := h
          subst h1
          have := parseMembers_allFinite fuel r0 ms r2 heq3
          simpa [Value.allFinite] using allFiniteEntries_buildMap ms this
        · simp at h
    · rename_i c r0 _n1 _n2 _n3 _n4 _n5 _n6 heq
      split at h
      · split at h
        · rename_i jn r2 heq4
          simp only [Except.ok.injEq, Prod.mk.injEq] at h
          obtain ⟨h1, -⟩ := h
          subst h1
          obtain ⟨m, e, hme⟩ := parseNumber_isFinite (c :: r0) jn r2 heq4
          subst hme
          rfl
        · simp at h
      · simp at h
    · simp at h

/-- Elementwise finiteness of parsed arrays. -/
theorem parseElems_allFinite : ∀ (fuel : Nat) (cs : List Char) (es : List Value)
    (r : List Char), parseElems fuel cs = .ok (es, r) → allFiniteElems es = true
  | 0, cs, es, r, h => by simp [parseElems] at h
  | fuel + 1, cs, es, r, h => by
    simp only [parseElems] at h
    split at h
    · simp at h
    · rename_i v0 r0 heq
      have hv := parseVal_allFinite fuel cs v0 r0 heq
      split at h
      · rename_i r2 heq2
        split at h
        · rename_i vs r3 heq3
          simp only [Except.ok.injEq, Prod.mk.injEq] at h
          obtain ⟨h1, -⟩ := h
          subst h1
          simp only [allFiniteElems, Bool.and_eq_true]
          exact ⟨hv, parseElems_allFinite fuel r2 vs r3 heq3⟩
        · simp at h
      · rename_i r2 heq2
        simp only [Except.ok.injEq, Prod.mk.injEq] at h
        obtain ⟨h1, -⟩ := h
        subst h1
        simp [allFiniteElems, hv]
      · simp at h

/-- Entrywise finiteness of parsed member lists. -/
theorem parseMembers_allFinite : ∀ (fuel : Nat) (cs : List Char)
    (ms : List (List Char × Value)) (r : List Char),
    parseMembers fuel cs = .ok (ms, r) → allFiniteEntries ms = true
  | 0, cs, ms, r, h => by simp [parseMembers] at h
  | fuel + 1, cs, ms, r, h => by
    simp only [parseMembers] at h
    split at h
    · rename_i r0 heq1
      split at h
      · simp at h
      · rename_i key r1 heq2
        split at h
        · rename_i r2 heq3
          split at h
          · simp at h
          · rename_i v0 r3 heq4
            have hv := parseVal_allFinite fuel r2 v0 r3 heq4
            split at h
            · rename_i r4 heq5
              split at h
              · rename_i ms0 r5 heq6
                simp only [Except.ok.injEq, Prod.mk.injEq] at h
                obtain ⟨h1, -⟩ := h
                subst h1
                simp only [allFiniteEntries, Bool.and_eq_true]
                exact ⟨hv, parseMembers_allFinite fuel r4 ms0 r5 heq6⟩
              · simp at h
            · rename_i r4 heq5
              simp only [Except.ok.injEq, Prod.mk.injEq] at h
              obtain ⟨h1, -⟩ := h
              subst h1
              simp [allFiniteEntries, hv]
            · simp at h
        · simp at h
    · simp at h

end

/-- Values produced by the document parser are all-finite. -/
theorem json_loads_allFinite (s : String) (j : Value) (h : json_loads s = .ok j) :
    j.allFinite = true := by
  simp only [json_loads, parseTop] at h
  split at h
  · simp at h
  · rename_i v0 r0 heq
    split at h
    · simp only [Except.ok.injEq] at h
      subst h
      exact parseVal_allFinite (s.data.length + 1) s.data v0 r0 heq
    · simp at h

/-! ### Frame lemmas for the wrapper methods -/

/-- `load_data` never touches the three path fields. -/
theorem load_data_frame (fs : FileSys) (st : SerializerState) :
    ((load_data fs st).2).input_file_path = st.input_file_path ∧
    ((load_data fs st).2).protobuf_output_path = st.protobuf_output_path ∧
    ((load_data fs st).2).json_output_path = st.json_output_path := by
  simp only [load_data]
  split
  · exact ⟨rfl, rfl, rfl⟩
  · exact ⟨rfl, rfl, rfl⟩
  · split
    · exact ⟨rfl, rfl, rfl⟩
    · exact ⟨rfl, rfl, rfl⟩

/-- `json_to_protobuf` never touches the three path fields. -/
theorem json_to_protobuf_frame (jd : Option Value) (st : SerializerState) :
    ((json_to_protobuf jd st).2).input_file_path = st.input_file_path ∧
    ((json_to_protobuf jd st).2).protobuf_output_path = st.protobuf_output_path ∧
    ((json_to_protobuf jd st).2).json_output_path = st.json_output_path := by
  simp only [json_to_protobuf]
  split
  · split
    · exact ⟨rfl, rfl, rfl⟩
    · exact ⟨rfl, rfl, rfl⟩
  · exact ⟨rfl, rfl, rfl⟩

/-- `writeProto` returns the state it was given. -/
theorem writeProto_state (fs : FileSys) (st : SerializerState) :
    (writeProto fs st).2.2 = st := by
  simp only [writeProto]
  split
  · split
    · rfl
    · rfl
  · rfl

/-- `save_protobuf` never touches the three path fields. -/
theorem save_protobuf_frame (fs : FileSys) (st : SerializerState) :
    ((save_protobuf fs st).2.2).input_file_path = st.input_file_path ∧
    ((save_protobuf fs st).2.2).protobuf_output_path = st.protobuf_output_path ∧
    ((save_protobuf fs st).2.2).json_output_path = st.json_output_path := by
  simp only [save_protobuf]
  split
  · rw [writeProto_state]
    exact ⟨rfl, rfl, rfl⟩
  · split
    · rcases hconv : json_to_protobuf none st with ⟨res, st1⟩
      have hframe := json_to_protobuf_frame none st
      rw [hconv] at hframe
      cases res with
      | ok j =>
        simp only [hconv]
        rw [writeProto_state]
        exact hframe
      | error e =>
        simp only [hconv]
        exact hframe
    · exact ⟨rfl, rfl, rfl⟩

/-! ### The spec's claims -/

/-- C1: for every value tree within the closed kind set whose top level
is a map and which holds no non-finite number, encoding to the binary
form succeeds and decoding the bytes back yields a structurally equal
tree (map key sets and list order included, since equality of `Value` is
structural). -/
theorem C1_binary_roundtrip (v : Value) (_hmap : v.isMapTop = true)
    (hfin : v.allFinite = true) :
    ∃ bs, encodeVal v = .ok bs ∧ decode bs = .ok v := by
  obtain ⟨bs, hbs⟩ := encodeVal_ok_of_allFinite v hfin
  exact ⟨bs, hbs, decode_encodeVal v bs hbs⟩

theorem C1_witness :
    Value.isMapTop (.vmap [(['a'], .vnum (.finite 1 0))]) = true ∧
    Value.allFinite (.vmap [(['a'], .vnum (.finite 1 0))]) = true ∧
    ∃ bs, encodeVal (.vmap [(['a'], .vnum (.finite 1 0))]) = .ok bs ∧
      decode bs = .ok (.vmap [(['a'], .vnum (.finite 1 0))]) :=
  ⟨rfl, by simp [Value.allFinite, allFiniteEntries, JNum.isFinite],
    C1_binary_roundtrip (.vmap [(['a'], .vnum (.finite 1 0))]) rfl
      (by simp [Value.allFinite, allFiniteEntries, JNum.isFinite])⟩

/-- C2: the input JSON text `[]` (empty list at top level) converts to the
binary container successfully, and decoding the produced bytes yields the
empty list again. -/
theorem C2_empty_list_roundtrip :
    ∃ bs, (convert_string "[]" initState).1 = .ok bs ∧ decode bs = .ok (.vlist []) := by
  have hp : json_loads "[]" = .ok (.vlist []) := rfl
  have henc : encodeVal (.vlist []) = .ok [4, 0] := by simp [encodeVal, encodeElems, natBytes]
  refine ⟨[4, 0], ?_, rfl⟩
  simp [convert_string, hp, json_to_protobuf, henc]

/-- C3: encoding any value tree containing a Number holding NaN or an
infinity fails with the `EncodeError` for non-finite numbers rather than
silently coercing. -/
theorem C3_encode_rejects_nonfinite (v : Value) (h : v.hasNonFinite = true) :
    encodeVal v = .error .nonFinite :=
  encodeVal_error_of_hasNonFinite v h

theorem C3_witness :
    Value.hasNonFinite (.vlist [.vnum .nan]) = true ∧
    encodeVal (.vlist [.vnum .nan]) = .error .nonFinite :=
  ⟨by simp [Value.hasNonFinite, hasNonFiniteElems, JNum.isFinite],
    C3_encode_rejects_nonfinite (.vlist [.vnum .nan])
      (by simp [Value.hasNonFinite, hasNonFiniteElems, JNum.isFinite])⟩

/-- C4: decoding a zero-length binary buffer fails with a `DecodeError`
(truncated input), both at the codec and through `load_protobuf` on an
empty file; no value tree is produced and the stored state is unchanged. -/
theorem C4_empty_buffer_decode_error :
    decode [] = .error .truncated ∧
    (∀ (fs : FileSys) (st : SerializerState),
      fs st.protobuf_output_path = some (.fbin []) →
      load_protobuf fs st = (.error .decodeError, st)) := by
  refine ⟨rfl, ?_⟩
  intro fs st h
  simp only [load_protobuf, h]
  rfl

theorem C4_witness :
    load_protobuf (fun _ => some (.fbin [])) initState = (.error .decodeError, initState) :=
  C4_empty_buffer_decode_error.2 (fun _ => some (.fbin [])) initState rfl

/-- C5: parsing the duplicate-key text `\x7b"a":1,"a":2\x7d` succeeds
and yields a Map with the single key `a` bound to the number `2`: the
last occurrence of a duplicate key wins during construction. -/
theorem C5_duplicate_keys_last_wins :
    json_loads "\x7b\"a\":1,\"a\":2\x7d" = .ok (.vmap [(['a'], .vnum (.finite 2 0))]) := rfl

/-- C6: the parser produces a value only on texts that are a single
well-formed top-level JSON value, and fails with a `ParseErr` otherwise;
in particular the text `\x7b"a": \x7d` with a missing value and a text
with trailing garbage after the value are rejected. -/
theorem C6_parse_rejects_malformed :
    (∀ (cs : List Char) (v : Value), parseTop cs = .ok v → IsJsonText cs) ∧
    parseTop missingValueText = .error .unexpectedChar ∧
    parseTop trailingGarbageText = .error .trailingGarbage :=
  ⟨fun cs v h => parseTop_sound cs v h, rfl, rfl⟩

theorem C6_witness : IsJsonText ("\x7b\x7d".data) :=
  C6_parse_rejects_malformed.1 ("\x7b\x7d".data) (.vmap []) rfl

/-- C7: every conversion operation is all-or-nothing: whenever
`load_data`, `json_to_protobuf`, `load_protobuf`, `protobuf_to_json` or
`convert_string` fails, the stored `data` and `proto_data` fields are
exactly what they were before the call. -/
theorem C7_all_or_nothing :
    (∀ (fs : FileSys) (st : SerializerState) (e : PyError) (st2 : SerializerState),
      load_data fs st = (.error e, st2) → st2.data = st.data ∧ st2.proto_data = st.proto_data) ∧
    (∀ (jd : Option Value) (st : SerializerState) (e : PyError) (st2 : SerializerState),
      json_to_protobuf jd st = (.error e, st2) →
      st2.data = st.data ∧ st2.proto_data = st.proto_data) ∧
    (∀ (fs : FileSys) (st : SerializerState) (e : PyError) (st2 : SerializerState),
      load_protobuf fs st = (.error e, st2) →
      st2.data = st.data ∧ st2.proto_data = st.proto_data) ∧
    (∀ (st : SerializerState) (e : PyError) (st2 : SerializerState),
      protobuf_to_json st = (.error e, st2) →
      st2.data = st.data ∧ st2.proto_data = st.proto_data) ∧
    (∀ (s : String) (st : SerializerState) (e : PyError) (st2 : SerializerState),
      convert_string s st = (.error e, st2) →
      st2.data = st.data ∧ st2.proto_data = st.proto_data) := by
  refine ⟨?_, ?_, ?_, ?_, ?_⟩
  · intro fs st e st2 h
    simp only [load_data] at h
    split at h
    · simp only [Prod.mk.injEq] at h
      rw [← h.2]
      exact ⟨rfl, rfl⟩
    · simp only [Prod.mk.injEq] at h
      rw [← h.2]
      exact ⟨rfl, rfl⟩
    · split at h
      · simp at h
      · simp only [Prod.mk.injEq] at h
        rw [← h.2]
        exact ⟨rfl, rfl⟩
  · intro jd st e st2 h
    simp only [json_to_protobuf] at h
    split at h
    · split at h
      · simp only [Prod.mk.injEq] at h
        rw [← h.2]
        exact ⟨rfl, rfl⟩
      · simp at h
    · simp at h
  · intro fs st e st2 h
    simp only [load_protobuf] at h
    split at h
    · simp only [Prod.mk.injEq] at h
      rw [← h.2]
      exact ⟨rfl, rfl⟩
    · simp only [Prod.mk.injEq] at h
      rw [← h.2]
      exact ⟨rfl, rfl⟩
    · split at h
      · simp at h
      · simp only [Prod.mk.injEq] at h
        rw [← h.2]
        exact ⟨rfl, rfl⟩
  · intro st e st2 h
    simp only [protobuf_to_json] at h
    split at h
    · split at h
      · simp at h
      · simp only [Prod.mk.injEq] at h
        rw [← h.2]
        exact ⟨rfl, rfl⟩
    · simp only [Prod.mk.injEq] at h
      rw [← h.2]
      exact ⟨rfl, rfl⟩
  · intro s st e st2 h
    simp only [convert_string] at h
    split at h
    · rename_i e0 heq
      simp only [Prod.mk.injEq] at h
      rw [← h.2]
      exact ⟨rfl, rfl⟩
    · rename_i j heq
      obtain ⟨bs, hbs⟩ := encodeVal_ok_of_allFinite j (json_loads_allFinite s j heq)
      simp only [json_to_protobuf, hbs] at h
      simp at h

theorem C7_witness :
    (initState.data = initState.data ∧ initState.proto_data = initState.proto_data) :=
  C7_all_or_nothing.1 (fun _ => none) initState (.fileNotFound "complex.json") initState rfl

/-- C8: `convert_string` is deterministic: the returned result (the
produced byte sequence, or the failure) depends only on the input text,
not on the instance state, so two calls with the same input return equal
byte sequences and a failing input fails identically. -/
theorem C8_convert_string_deterministic (s : String) (st1 st2 : SerializerState) :
    (convert_string s st1).1 = (convert_string s st2).1 := by
  cases h : json_loads s with
  | error e => simp [convert_string, h]
  | ok j =>
    cases he : encodeVal j with
    | ok bs => simp [convert_string, h, json_to_protobuf, he]
    | error err => simp [convert_string, h, json_to_protobuf, he]

/-- C9: after loading the empty object `\x7b\x7d` and converting it, both
stored fields are falsy (the parsed dict is empty, and the container's
`__len__` is zero), so `save_protobuf` raises `ValueError` even though
data was loaded and converted; likewise `save_json` raises `ValueError`
when the stored data is the empty object and no protobuf data is held. -/
theorem C9_empty_object_save_raises :
    load_data fsEmptyObj initState = (.ok (.vmap []), stLoaded) ∧
    json_to_protobuf none stLoaded = (.ok (.vmap []), stConverted) ∧
    save_protobuf fsEmptyObj stConverted = (.error .valueError, fsEmptyObj, stConverted) ∧
    save_json none fsEmptyObj stLoaded = (.error .valueError, fsEmptyObj, stLoaded) :=
  ⟨rfl, rfl, rfl, rfl⟩

/-- C10: `convert_file` leaves `input_file_path`, `protobuf_output_path`
and `json_output_path` exactly as they were before the call, on success
and on every failure path (the `finally` restore); only `data` and
`proto_data` may change. -/
theorem C10_convert_file_preserves_paths (fs : FileSys) (st : SerializerState)
    (input_path output_path : String) :
    ((convert_file fs st input_path output_path).2.2).input_file_path = st.input_file_path ∧
    ((convert_file fs st input_path output_path).2.2).protobuf_output_path =
      st.protobuf_output_path ∧
    ((convert_file fs st input_path output_path).2.2).json_output_path =
      st.json_output_path := by
  have hf1 := load_data_frame fs
    { st with input_file_path := input_path, protobuf_output_path := output_path }
  simp only [convert_file]
  split
  · rename_i e st2 heq
    rw [heq] at hf1
    exact ⟨rfl, rfl, hf1.2.2⟩
  · rename_i j1 st2 heq
    rw [heq] at hf1
    have h1 : st2.json_output_path = st.json_output_path := hf1.2.2
    have hf2 := json_to_protobuf_frame none st2
    split
    · rename_i e st3 heq2
      rw [heq2] at hf2
      have h2 : st3.json_output_path = st2.json_output_path := hf2.2.2
      exact ⟨rfl, rfl, h2.trans h1⟩
    · rename_i j2 st3 heq2
      rw [heq2] at hf2
      have h2 : st3.json_output_path = st2.json_output_path := hf2.2.2
      have hf3 := save_protobuf_frame fs st3
      split
      · rename_i u fs1 st4 heq3
        rw [heq3] at hf3
        have h3 : st4.json_output_path = st3.json_output_path := hf3.2.2
        exact ⟨rfl, rfl, (h3.trans h2).trans h1⟩
      · rename_i e fs1 st4 heq3
        rw [heq3] at hf3
        have h3 : st4.json_output_path = st3.json_output_path := hf3.2.2
        exact ⟨rfl, rfl, (h3.trans h2).trans h1⟩
